import Mathlib

/-!
The quote handler of zequotes (`api/quotes.go`).

A shallow embedding of the request path of the quote service: the query
resolver, the in-place filter over the package-level slice `allQuotes`, the
sampler `sample`, and the response assembly of `Handler`.

Modelling choices.

* A Go slice is a view on a backing array.  `allQuotes` keeps its length for the
  whole process, so the dataset is the content of its backing array, a
  `List Quote`.  `filtered := allQuotes[:0]` is a view on the *same* array, and
  `append(filtered, it)` with spare capacity writes element `len(filtered)` of
  that array; the filter loop is therefore modelled as explicit state passing
  on the array.
* The global random source is a stream of raw draws; `rand.Intn n` takes the head
  modulo `n`.
* The rejection loop of `sample` need not terminate, so running code yields a
  `Run`: a value, a Go run-time panic, or "still running" when the allowance of
  draws is used up.
* `strings.ToLower` maps `unicode.ToLower` over the runes; the rune map is a
  parameter `lowerRune`.  `strconv.Atoi` is modelled for a 64-bit `int`.
  `json.Unmarshal` and `sha1.Sum` are parameters of `init`.
* Probabilities are counts: with independent uniform draws every sequence of `F`
  draws from `[0, len)` is equally likely, so the probability of an event that
  depends on the first `F` draws is the number of sequences in it over `len ^ F`.
-/

namespace Zequotes

/-- The record `Quote` of the source. -/
structure Quote where
  ID : String
  Author : String
  Text : String
  Lang : String
  Category : String
  deriving DecidableEq, Repr, Inhabited

/-- Outcome of running code that may panic or may still be looping when its
allowance of random draws is used up. -/
inductive Run (α : Type) where
  | done (a : α)
  | panic (msg : String)
  | outOfFuel
  deriving Repr

/-- The global random source of `math/rand`, as the stream of its raw draws. -/
abbrev Rand := Nat → Nat

/-- The source after `k` draws have been consumed. -/
def Rand.drop (g : Rand) (k : Nat) : Rand := fun i => g (i + k)

/-- The model of `rand.Intn(n)`: panics for `n <= 0`, otherwise a value of `[0, n)`
and the advanced source. -/
def Intn (g : Rand) (n : Nat) : Run (Nat × Rand) :=
  if n = 0 then .panic "invalid argument to Intn" else .done (g 0 % n, g.drop 1)

/-- The model of `strings.ToLower`: the rune map applied to every rune. -/
def ToLower (lowerRune : Char → Char) (s : String) : String :=
  String.mk (s.data.map lowerRune)

/-- The value of one decimal digit, if the rune is one. -/
def digitVal (c : Char) : Option Nat :=
  if '0' ≤ c ∧ c ≤ '9' then some (c.toNat - '0'.toNat) else none

/-- The value of a non-empty string of decimal digits read left to right, with
`acc` the value of the digits already read. -/
def parseDigits : List Char → Nat → Option Nat
  | [], acc => some acc
  | c :: cs, acc =>
    match digitVal c with
    | none => none
    | some d => parseDigits cs (acc * 10 + d)

/-- The model of `strconv.Atoi` as used by the handler (`none` stands for
`err != nil`): an optional sign, then at least one decimal digit and nothing
else, and the value must fit a 64-bit `int`. -/
def Atoi (s : String) : Option Int :=
  let body (cs : List Char) : Option Nat :=
    match cs with
    | [] => none
    | _ => parseDigits cs 0
  match s.data with
  | '-' :: cs =>
    match body cs with
    | some v => if v ≤ 2 ^ 63 then some (-(v : Int)) else none
    | none => none
  | '+' :: cs =>
    match body cs with
    | some v => if v < 2 ^ 63 then some (v : Int) else none
    | none => none
  | cs =>
    match body cs with
    | some v => if v < 2 ^ 63 then some (v : Int) else none
    | none => none

/-- An HTTP request as the handler reads it: the method, the header fields and
the parsed query, both as key/value pairs in order. -/
structure Request where
  Method : String
  Header : List (String × String)
  Query : List (String × String)
  deriving Repr

/-- The model of `Header.Get` and `url.Values.Get`: the first value of the key, or
the empty string. -/
def Get (kv : List (String × String)) (key : String) : String :=
  match kv.find? (fun p => p.1 == key) with
  | some p => p.2
  | none => ""

/-- A JSON value as far as the handler builds one. -/
inductive JSONValue where
  | str (s : String)
  | int (n : Int)
  | quotes (qs : List Quote)
  deriving DecidableEq, Repr

/-- What was written to the response body: nothing, or a JSON object (its
members by key) and whether it was re-indented. -/
inductive Body where
  | empty
  | json (members : List (String × JSONValue)) (indented : Bool)
  deriving DecidableEq, Repr

/-- The response: status code, headers in the order they were set, body. -/
structure Response where
  status : Nat
  headers : List (String × String)
  body : Body
  deriving DecidableEq, Repr

/-- The package-level state: the dataset and its validation token. -/
structure Server where
  allQuotes : List Quote
  etag : String
  deriving DecidableEq, Repr

/-- The token computed by `init` from the hex digest: `fmt.Sprintf` of the
weak-validator pattern. -/
def etagOf (hexSum : String) : String := "W/\"" ++ hexSum ++ "\""

/-- The five `w.Header().Set` calls at the top of `Handler`. -/
def baseHeaders (etag : String) : List (String × String) :=
  [("Access-Control-Allow-Origin", "*"),
   ("Vary", "Origin,Accept-Encoding,If-None-Match"),
   ("Cache-Control", "public, s-maxage=600, stale-while-revalidate=86400"),
   ("ETag", etag),
   ("Content-Type", "application/json; charset=utf-8")]

/-- Limit resolution of `handleGET`: the default 1, replaced by `n` when the
parameter is non-empty, parses and `0 < n <= 100`. -/
def resolveLimit (ls : String) : Int :=
  if ls ≠ "" then
    match Atoi ls with
    | some n => if n > 0 ∧ n ≤ 100 then n else 1
    | none => 1
  else 1

/-- The body of the filter loop up to the `append`: `false` when one of the three
`continue` statements fires.  `lang` and `cat` are the lower-cased
parameters. -/
def keep (lowerRune : Char → Char) (id lang cat : String) (it : Quote) : Bool :=
  if id ≠ "" ∧ it.ID ≠ id then false
  else if lang ≠ "" ∧ ToLower lowerRune it.Lang ≠ lang then false
  else if cat ≠ "" ∧ ToLower lowerRune it.Category ≠ cat then false
  else true

/-- The loop `for _, it := range allQuotes` with `filtered` a view on the array it
ranges over: `steps` iterations are left, `i` is the read position, `k` is
`len(filtered)` and `arr` the backing array.  Each iteration reads `arr[i]` and,
when the quote is kept, writes it to `arr[k]`.  Returns the final `k` and
array. -/
def filterLoop (lowerRune : Char → Char) (id lang cat : String) :
    Nat → Nat → Nat → List Quote → Nat × List Quote
  | 0, _, k, arr => (k, arr)
  | steps + 1, i, k, arr =>
    match arr[i]? with
    | none => (k, arr)
    | some it =>
      if keep lowerRune id lang cat it then
        filterLoop lowerRune id lang cat steps (i + 1) (k + 1) (arr.set k it)
      else
        filterLoop lowerRune id lang cat steps (i + 1) k arr

/-- Lines 74-89 of `handleGET`: the candidate list handed to `sample`, paired
with the content of the backing array of `allQuotes` afterwards. -/
def candidates (lowerRune : Char → Char) (allQuotes : List Quote) (id lang cat : String) :
    List Quote × List Quote :=
  let (k, arr) := filterLoop lowerRune id lang cat allQuotes.length 0 0 allQuotes
  let filtered := arr.take k
  if filtered.length = 0 then (arr, arr) else (filtered, arr)

/-- The closure passed to `rand.Shuffle`: exchange elements `i` and `j`.  `Shuffle`
calls it with both indices in range; the model leaves the slice as it is for
any other pair. -/
def swap {α : Type} (cp : List α) (i j : Nat) : List α :=
  match cp[i]?, cp[j]? with
  | some a, some b => (cp.set i b).set j a
  | _, _ => cp

/-- The loop of `rand.Shuffle`, `for i := n - 1; i > 0; i--` with `j` drawn from
`[0, i]` and elements `i` and `j` exchanged; the first argument is the current
`i`. -/
def shuffleLoop {α : Type} : Nat → List α → Rand → List α × Rand
  | 0, cp, g => (cp, g)
  | i + 1, cp, g => shuffleLoop i (swap cp (i + 1) (g 0 % (i + 2))) (g.drop 1)

/-- The model of `rand.Shuffle(len(cp), swap)` on the slice `cp`. -/
def Shuffle {α : Type} (cp : List α) (g : Rand) : List α × Rand :=
  shuffleLoop (cp.length - 1) cp g

/-- The loop `for len(out) < n` of `sample`; `fuel` bounds the number of draws,
`seen` holds the keys of the map in insertion order. -/
def sampleLoop (src : List Quote) (n : Nat) :
    Nat → List Nat → List Quote → Rand → Run (List Quote × Rand)
  | 0, _, out, g => if out.length < n then .outOfFuel else .done (out, g)
  | fuel + 1, seen, out, g =>
    if out.length < n then
      match Intn g src.length with
      | .done (i, g1) =>
        if i ∈ seen then sampleLoop src n fuel seen out g1
        else
          match src[i]? with
          | some q => sampleLoop src n fuel (seen ++ [i]) (out ++ [q]) g1
          | none => .panic "index out of range"
      | .panic msg => .panic msg
      | .outOfFuel => .outOfFuel
    else .done (out, g)

/-- The function `sample`: a shuffled copy when `n >= len(src)`, otherwise `n`
elements at distinct random indices.  `make([]Quote, 0, n)` panics for a
negative capacity. -/
def sample (src : List Quote) (n : Int) (fuel : Nat) (g : Rand) : Run (List Quote × Rand) :=
  if n ≥ (src.length : Int) then .done (Shuffle src g)
  else if n < 0 then .panic "makeslice: cap out of range"
  else sampleLoop src n.toNat fuel [] [] g

/-- What a finished call of the handler leaves behind: the response, the content
of `allQuotes`, and the random source. -/
structure Result where
  resp : Response
  allQuotes : List Quote
  rng : Rand

/-- Lines 63-66 and 74-89 of `handleGET`: the three filter parameters are read
from the query (`lang` and `category` lower-cased) and the filter runs.  The
candidate list, paired with the content of `allQuotes` afterwards. -/
def candidatesOf (lowerRune : Char → Char) (allQuotes : List Quote) (r : Request) :
    List Quote × List Quote :=
  let q := r.Query
  let id := Get q "id"
  let lang := ToLower lowerRune (Get q "lang")
  let cat := ToLower lowerRune (Get q "category")
  candidates lowerRune allQuotes id lang cat

/-- Lines 67-72 of `handleGET`: the effective limit of a request. -/
def limitOf (r : Request) : Int := resolveLimit (Get r.Query "limit")

/-- The function `handleGET`; `hdrs` are the headers already set. -/
def handleGET (lowerRune : Char → Char) (st : Server) (hdrs : List (String × String))
    (r : Request) (fuel : Nat) (g : Rand) : Run Result :=
  let limit := limitOf r
  let (filtered, arr) := candidatesOf lowerRune st.allQuotes r
  match sample filtered limit fuel g with
  | .done (out, g1) =>
    let members := [("count", JSONValue.int out.length), ("result", JSONValue.quotes out)]
    .done ⟨⟨200, hdrs, .json members (Get r.Query "pretty" == "1")⟩, arr, g1⟩
  | .panic msg => .panic msg
  | .outOfFuel => .outOfFuel

/-- The function `Handler`. -/
def Handler (lowerRune : Char → Char) (st : Server) (r : Request) (fuel : Nat) (g : Rand) :
    Run Result :=
  let hdrs := baseHeaders st.etag
  let inm := Get r.Header "If-None-Match"
  if inm ≠ "" ∧ inm = st.etag then
    .done ⟨⟨304, hdrs, .empty⟩, st.allQuotes, g⟩
  else if r.Method = "GET" then
    handleGET lowerRune st hdrs r fuel g
  else
    .done ⟨⟨405, hdrs, .json [("error", .str "method_not_allowed")] false⟩, st.allQuotes, g⟩

/-- A sequence of requests served one after the other, each with its own
allowance of draws; the run stops at the first request that does not finish.
Returns the responses in order and the final state. -/
def serve (lowerRune : Char → Char) (etag : String) :
    List (Request × Nat) → List Quote → Rand → Run (List Response × List Quote × Rand)
  | [], ds, g => .done ([], ds, g)
  | (r, fuel) :: rest, ds, g =>
    match Handler lowerRune ⟨ds, etag⟩ r fuel g with
    | .done res =>
      match serve lowerRune etag rest res.allQuotes res.rng with
      | .done (rs, ds1, g1) => .done (res.resp :: rs, ds1, g1)
      | .panic msg => .panic msg
      | .outOfFuel => .outOfFuel
    | .panic msg => .panic msg
    | .outOfFuel => .outOfFuel

/-- The member `result` of a JSON body, empty when there is none. -/
def Response.result (resp : Response) : List Quote :=
  match resp.body with
  | .json members _ =>
    match members.find? (fun p => p.1 == "result") with
    | some (_, .quotes qs) => qs
    | _ => []
  | .empty => []

/-- The member `count` of a JSON body, if there is one. -/
def Response.count (resp : Response) : Option Int :=
  match resp.body with
  | .json members _ =>
    match members.find? (fun p => p.1 == "count") with
    | some (_, .int n) => some n
    | _ => none
  | .empty => none

/-- The first `k` values that `rand.Intn(n)` returns on the source `g`. -/
def draws (g : Rand) (n k : Nat) : List Nat :=
  (List.range k).map (fun t => g t % n)

/-- What can be observed of a finished call: the response and the content of
`allQuotes` afterwards; `none` for a call that did not finish. -/
def Run.outcome (x : Run Result) : Option (Response × List Quote) :=
  match x with
  | .done res => some (res.resp, res.allQuotes)
  | .panic _ => none
  | .outOfFuel => none

/-- The ASCII part of `unicode.ToLower`, used for concrete runs. -/
def asciiLower (c : Char) : Char := c.toLower

/-- The filter in the words of the specification: every non-empty constraint of
the request matches the quote, exactly for `id`, after lower-casing both sides
for `lang` and `category`. -/
def specMatches (lowerRune : Char → Char) (id lang category : String) (q : Quote) : Prop :=
  (id = "" ∨ q.ID = id) ∧
  (lang = "" ∨ ToLower lowerRune q.Lang = ToLower lowerRune lang) ∧
  (category = "" ∨ ToLower lowerRune q.Category = ToLower lowerRune category)

instance (lowerRune : Char → Char) (id lang category : String) (q : Quote) :
    Decidable (specMatches lowerRune id lang category q) :=
  inferInstanceAs (Decidable (_ ∧ _ ∧ _))

/-- The quotes of a dataset that match a request, in the words of the
specification. -/
def specFilter (lowerRune : Char → Char) (D : List Quote) (r : Request) : List Quote :=
  D.filter (fun q => decide (specMatches lowerRune (Get r.Query "id") (Get r.Query "lang")
    (Get r.Query "category") q))

/-- Example quote `a`, language `en`. -/
def qa : Quote := ⟨"a", "Ann", "first", "en", "Life"⟩

/-- Example quote `b`, language `en`. -/
def qb : Quote := ⟨"b", "Bob", "second", "en", "work"⟩

/-- Example quote `c`, language `fr`. -/
def qc : Quote := ⟨"c", "Cy", "third", "fr", "Work"⟩

/-- Example state: the three quotes and a token. -/
def exampleServer : Server := ⟨[qa, qb, qc], etagOf "2fd4e1c67a2d28fced849ee1bb76e7391b93eb12"⟩

/-- Example random source: the draws 0, 1, 2, ... -/
def countingRand : Rand := fun t => t

/-- Example random source: the draws 0, 0, 1, 1, 2, 2, ... -/
def stutterRand : Rand := fun t => t / 2

/-- Example random source: the constant draw 0. -/
def zeroRand : Rand := fun _ => 0

/-- One hexadecimal digit in lower case, as the verb `%x` prints it. -/
def hexDigit (d : Nat) : Char :=
  if d < 10 then Char.ofNat ('0'.toNat + d) else Char.ofNat ('a'.toNat + (d - 10))

/-- The verb `%x` on a byte array: two lower-case hexadecimal digits per byte. -/
def hexOf (sum : List Nat) : String :=
  String.mk (sum.flatMap (fun b => [hexDigit (b / 16 % 16), hexDigit (b % 16)]))

/-- The function `init`: the embedded bytes are parsed into `allQuotes`, with a
panic when they do not parse, and the token is built from their SHA-1 sum.
`json.Unmarshal` and `sha1.Sum` are parameters; seeding the random source has no
counterpart, the source being a parameter of every call. -/
def init (Unmarshal : List Nat → Option (List Quote)) (sha1Sum : List Nat → List Nat)
    (quotesJSON : List Nat) : Run Server :=
  match Unmarshal quotesJSON with
  | none => .panic "failed to parse quotes.json"
  | some qs => .done ⟨qs, etagOf (hexOf (sha1Sum quotesJSON))⟩

/-- The states of the filter loop, one at the head of each iteration and one at
its end: read position `i`, write position `k = len(filtered)`, and the backing
array.  The body is the body of `filterLoop`. -/
def filterStates (lowerRune : Char → Char) (id lang cat : String) :
    Nat → Nat → Nat → List Quote → List (Nat × Nat × List Quote)
  | 0, i, k, arr => [(i, k, arr)]
  | steps + 1, i, k, arr =>
    match arr[i]? with
    | none => [(i, k, arr)]
    | some it =>
      if keep lowerRune id lang cat it then
        (i, k, arr) :: filterStates lowerRune id lang cat steps (i + 1) (k + 1) (arr.set k it)
      else
        (i, k, arr) :: filterStates lowerRune id lang cat steps (i + 1) k arr

/-- The random source that yields the values of `js` in order, and 0 afterwards. -/
def streamOf (js : List Nat) : Rand := fun t => js.getD t 0

/-- The random source that yields the `F` in-range draws `ds` in order, and 0
afterwards. -/
def streamOfFn {F len : Nat} (ds : Fin F → Fin len) : Rand :=
  fun t => if h : t < F then (ds ⟨t, h⟩).val else 0

/-- The keys of `seen`, in insertion order, when the loop of `sample` returns on a
list of length `len`: the loop of `sampleLoop` without the quotes. -/
def sampleKeys (len n : Nat) : Nat → List Nat → Rand → Option (List Nat)
  | 0, seen, _ => if seen.length < n then none else some seen
  | fuel + 1, seen, g =>
    if seen.length < n then
      if g 0 % len ∈ seen then sampleKeys len n fuel seen (g.drop 1)
      else sampleKeys len n fuel (seen ++ [g 0 % len]) (g.drop 1)
    else some seen

/-- Whether the loop of `sample`, run on the `F` draws `ds`, returns within them
with position `i` among the positions selected. -/
def hits (len n F : Nat) (ds : Fin F → Fin len) (i : Nat) : Bool :=
  match sampleKeys len n F [] (streamOfFn ds) with
  | some keys => decide (i ∈ keys)
  | none => false

/-- The number of sequences of `F` draws from `[0, len)` on which the loop of `sample`
returns within them with position `i` selected. -/
def hitCount (len n F i : Nat) : Nat :=
  (Finset.univ.filter (fun ds : Fin F → Fin len => hits len n F ds i = true)).card

/-- The number of sequences of `F` draws from `[0, len)` on which the loop of `sample`
returns within them. -/
def doneCount (len n F : Nat) : Nat :=
  (Finset.univ.filter (fun ds : Fin F → Fin len =>
    (sampleKeys len n F [] (streamOfFn ds)).isSome = true)).card

/-- The draws a run of `rand.Shuffle` from index `i` down to 1 may make, in order:
the first in `[0, i]`, the next in `[0, i - 1]`, and so on. -/
def validJs : Nat → List Nat → Bool
  | 0, [] => true
  | 0, _ :: _ => false
  | _ + 1, [] => false
  | i + 1, j :: rest => decide (j ≤ i + 1) && validJs i rest

/-- A permutation of the positions `[0, len)` as a map of the naturals, the
identity elsewhere. -/
def liftPerm {len : Nat} (σ : Equiv.Perm (Fin len)) : Nat → Nat :=
  fun x => if h : x < len then (σ ⟨x, h⟩).val else x

/-! ## The filter loop -/

theorem filterLoop_spec (lowerRune : Char → Char) (id lang cat : String) (D : List Quote) :
    ∀ (steps i k : Nat) (pre : List Quote), steps + i = D.length → pre.length = k → k ≤ i →
      filterLoop lowerRune id lang cat steps i k (pre ++ D.drop k) =
        (k + ((D.drop i).filter (keep lowerRune id lang cat)).length,
         pre ++ (D.drop i).filter (keep lowerRune id lang cat) ++
           D.drop (k + ((D.drop i).filter (keep lowerRune id lang cat)).length)) := by
  intro steps
  induction steps with
  | zero =>
    intro i k pre hi hpre hk
    have : D.drop i = [] := List.drop_eq_nil_of_le (by omega)
    simp [filterLoop, this]
  | succ s ih =>
    intro i k pre hi hpre hk
    have hlt : i < D.length := by omega
    have hget : (pre ++ D.drop k)[i]? = some D[i] := by
      rw [List.getElem?_append_right (by omega), List.getElem?_drop]
      have : k + (i - pre.length) = i := by omega
      rw [this]
      exact List.getElem?_eq_getElem hlt
    have hdrop : D.drop i = D[i] :: D.drop (i + 1) := List.drop_eq_getElem_cons hlt
    have hklt : k < D.length := by omega
    have hset : (pre ++ D.drop k).set k D[i] = (pre ++ [D[i]]) ++ D.drop (k + 1) := by
      rw [List.set_append_right _ _ (by omega), hpre, Nat.sub_self,
        List.drop_eq_getElem_cons hklt, List.set_cons_zero]
      simp
    rw [filterLoop, hget]
    simp only []
    by_cases hkeep : keep lowerRune id lang cat D[i] = true
    · rw [if_pos hkeep, hset, ih (i + 1) (k + 1) (pre ++ [D[i]]) (by omega) (by simp [hpre]) (by omega)]
      rw [hdrop, List.filter_cons_of_pos hkeep]
      simp only [List.length_cons, List.append_assoc, List.singleton_append]
      have : k + 1 + (List.filter (keep lowerRune id lang cat) (List.drop (i + 1) D)).length =
          k + ((List.filter (keep lowerRune id lang cat) (List.drop (i + 1) D)).length + 1) := by
        omega
      rw [this]
    · rw [if_neg hkeep, ih (i + 1) k pre (by omega) hpre (by omega)]
      rw [hdrop, List.filter_cons_of_neg hkeep]

theorem filterLoop_eq (lowerRune : Char → Char) (id lang cat : String) (D : List Quote) :
    filterLoop lowerRune id lang cat D.length 0 0 D =
      ((D.filter (keep lowerRune id lang cat)).length,
       D.filter (keep lowerRune id lang cat) ++
         D.drop (D.filter (keep lowerRune id lang cat)).length) := by
  have h := filterLoop_spec lowerRune id lang cat D D.length 0 0 [] (by simp) rfl (le_refl 0)
  simpa using h

theorem candidates_eq (lowerRune : Char → Char) (id lang cat : String) (D : List Quote) :
    candidates lowerRune D id lang cat =
      (if D.filter (keep lowerRune id lang cat) = [] then D
        else D.filter (keep lowerRune id lang cat),
       D.filter (keep lowerRune id lang cat) ++
         D.drop (D.filter (keep lowerRune id lang cat)).length) := by
  unfold candidates
  rw [filterLoop_eq]
  simp only [List.take_left', List.length_eq_zero]
  by_cases h : D.filter (keep lowerRune id lang cat) = []
  · simp [h]
  · simp [h]

/-! ## The shuffle -/

theorem swap_length {α : Type} (cp : List α) (i j : Nat) : (swap cp i j).length = cp.length := by
  unfold swap
  split <;> simp

theorem swap_perm {α : Type} (cp : List α) (i j : Nat) : (swap cp i j).Perm cp := by
  classical
  unfold swap
  split
  · next a b ha hb =>
    obtain ⟨hi, rfl⟩ := List.getElem?_eq_some.mp ha
    obtain ⟨hj, rfl⟩ := List.getElem?_eq_some.mp hb
    rw [List.perm_iff_count]
    intro x
    have hj1 : j < (cp.set i cp[j]).length := by simpa using hj
    rw [List.count_set _ _ _ _ hj1, List.count_set _ _ _ _ hi]
    have h1 : (cp.set i cp[j])[j] = cp[j] := by
      rw [List.getElem_set]
      split
      · rfl
      · rfl
    rw [h1]
    have hci : (if (cp[i] == x) = true then 1 else 0) ≤ cp.count x := by
      by_cases h : cp[i] == x
      · have hx : x = cp[i] := (beq_iff_eq.mp h).symm
        simp only [h, if_true]
        exact List.count_pos_iff.mpr (hx ▸ List.getElem_mem hi)
      · simp [h]
    have hcj : (if (cp[j] == x) = true then 1 else 0) ≤ cp.count x := by
      by_cases h : cp[j] == x
      · have hx : x = cp[j] := (beq_iff_eq.mp h).symm
        simp only [h, if_true]
        exact List.count_pos_iff.mpr (hx ▸ List.getElem_mem hj)
      · simp [h]
    by_cases h3 : cp[i] == x <;> by_cases h2 : cp[j] == x <;>
      simp only [h3, h2, if_true, if_false, Bool.false_eq_true] at hci hcj ⊢ <;> omega
  · exact List.Perm.refl _

theorem swap_map {α β : Type} (f : α → β) (cp : List α) (i j : Nat) :
    swap (cp.map f) i j = (swap cp i j).map f := by
  unfold swap
  simp only [List.getElem?_map]
  cases hi : cp[i]? <;> cases hj : cp[j]? <;> simp [List.map_set]

theorem shuffleLoop_perm {α : Type} : ∀ (i : Nat) (cp : List α) (g : Rand),
    (shuffleLoop i cp g).1.Perm cp
  | 0, cp, g => by simp [shuffleLoop]
  | i + 1, cp, g => by
    rw [shuffleLoop]
    exact (shuffleLoop_perm i _ _).trans (swap_perm cp _ _)

theorem shuffleLoop_map {α β : Type} (f : α → β) : ∀ (i : Nat) (cp : List α) (g : Rand),
    shuffleLoop i (cp.map f) g = ((shuffleLoop i cp g).1.map f, (shuffleLoop i cp g).2)
  | 0, cp, g => by simp [shuffleLoop]
  | i + 1, cp, g => by
    rw [shuffleLoop, shuffleLoop, swap_map, shuffleLoop_map f i]

theorem shuffleLoop_rng {α : Type} : ∀ (i : Nat) (cp : List α) (g : Rand),
    (shuffleLoop i cp g).2 = g.drop i
  | 0, cp, g => by
    rw [shuffleLoop]
    rfl
  | i + 1, cp, g => by
    rw [shuffleLoop, shuffleLoop_rng i]
    funext t
    simp only [Rand.drop]
    rw [Nat.add_assoc]

theorem Shuffle_perm {α : Type} (cp : List α) (g : Rand) : (Shuffle cp g).1.Perm cp :=
  shuffleLoop_perm _ _ _

/-- The shuffled slice is the slice read at the shuffled positions `0 .. len-1`. -/
theorem Shuffle_positions {α : Type} (cp : List α) (g : Rand) :
    (Shuffle cp g).1.map some = (Shuffle (List.range cp.length) g).1.map (fun i => cp[i]?) := by
  have hcp : cp.map some = (List.range cp.length).map (fun i => cp[i]?) := by
    apply List.ext_getElem?
    intro n
    by_cases h : n < cp.length
    · simp [List.getElem?_range, h]
    · rw [List.getElem?_eq_none (by simpa using h), List.getElem?_eq_none (by simpa using h)]
  have h1 := shuffleLoop_map (some : α → Option α) (cp.length - 1) cp g
  have h2 := shuffleLoop_map (fun i => cp[i]?) (cp.length - 1) (List.range cp.length) g
  have h3 := congrArg Prod.fst h1
  have h4 := congrArg Prod.fst h2
  simp only at h3 h4
  unfold Shuffle
  rw [List.length_range, ← h3, ← h4, hcp]

/-! ## The rejection loop -/

theorem Rand.drop_drop (g : Rand) (a b : Nat) : (g.drop a).drop b = g.drop (b + a) := by
  funext t
  simp only [Rand.drop]
  rw [Nat.add_assoc]

theorem draws_zero (g : Rand) (n : Nat) : draws g n 0 = [] := rfl

theorem draws_succ (g : Rand) (n k : Nat) :
    draws g n (k + 1) = g 0 % n :: draws (g.drop 1) n k := by
  simp only [draws, List.range_succ_eq_map, List.map_cons, List.map_map]
  rfl

theorem draws_lt (g : Rand) (n k : Nat) (hn : 0 < n) : ∀ i ∈ draws g n k, i < n := by
  intro i hi
  simp only [draws, List.mem_map] at hi
  obtain ⟨t, _, rfl⟩ := hi
  exact Nat.mod_lt _ hn

theorem Intn_pos (g : Rand) (n : Nat) (hn : 0 < n) : Intn g n = .done (g 0 % n, g.drop 1) := by
  unfold Intn
  rw [if_neg (by omega)]

/-- Invariant of the loop of `sample`: when it returns, the quotes returned are
the elements of `src` at the keys of `seen`, which are the distinct indices
drawn, in the order of their first draw. -/
theorem sampleLoop_inv (src : List Quote) (n : Nat) (hsrc : 0 < src.length) :
    ∀ (fuel : Nat) (seen : List Nat) (out : List Quote) (g : Rand) (ds : List Nat)
      (out1 : List Quote) (g1 : Rand),
      sampleLoop src n fuel seen out g = .done (out1, g1) →
      out.map some = seen.map (fun i => src[i]?) → seen.Nodup → (∀ i, i ∈ seen ↔ i ∈ ds) →
      seen.Pairwise (fun a b => ds.indexOf a < ds.indexOf b) → out.length ≤ n →
      ∃ (m : Nat) (seen1 : List Nat), m ≤ fuel ∧ g1 = g.drop m ∧
        out1.map some = seen1.map (fun i => src[i]?) ∧ seen1.Nodup ∧
        (∀ i, i ∈ seen1 ↔ i ∈ ds ++ draws g src.length m) ∧
        seen1.Pairwise (fun a b => (ds ++ draws g src.length m).indexOf a <
          (ds ++ draws g src.length m).indexOf b) ∧
        out1.length = n := by
  intro fuel
  induction fuel with
  | zero =>
    intro seen out g ds out1 g1 h hmap hnd hmem hpw hle
    rw [sampleLoop] at h
    split at h
    · cases h
    · injection h with h
      injection h with h1 h2
      subst h1 h2
      refine ⟨0, seen, le_refl 0, rfl, hmap, hnd, ?_, ?_, by omega⟩
      · simpa [draws_zero] using hmem
      · simpa [draws_zero] using hpw
  | succ f ih =>
    intro seen out g ds out1 g1 h hmap hnd hmem hpw hle
    rw [sampleLoop] at h
    split at h
    · next hlt =>
      rw [Intn_pos g _ hsrc] at h
      simp only [] at h
      have hpw1 : seen.Pairwise (fun a b => (ds ++ [g 0 % src.length]).indexOf a <
          (ds ++ [g 0 % src.length]).indexOf b) := by
        refine hpw.imp_of_mem ?_
        intro a b ha hb hab
        rw [List.indexOf_append_of_mem ((hmem a).mp ha),
          List.indexOf_append_of_mem ((hmem b).mp hb)]
        exact hab
      have hfin : ∀ (m : Nat) (seen1 : List Nat),
          (m ≤ f ∧ g1 = (g.drop 1).drop m ∧
            out1.map some = seen1.map (fun i => src[i]?) ∧ seen1.Nodup ∧
            (∀ i, i ∈ seen1 ↔ i ∈ (ds ++ [g 0 % src.length]) ++ draws (g.drop 1) src.length m) ∧
            seen1.Pairwise (fun a b =>
              ((ds ++ [g 0 % src.length]) ++ draws (g.drop 1) src.length m).indexOf a <
              ((ds ++ [g 0 % src.length]) ++ draws (g.drop 1) src.length m).indexOf b) ∧
            out1.length = n) →
          ∃ (m : Nat) (seen1 : List Nat), m ≤ f + 1 ∧ g1 = g.drop m ∧
            out1.map some = seen1.map (fun i => src[i]?) ∧ seen1.Nodup ∧
            (∀ i, i ∈ seen1 ↔ i ∈ ds ++ draws g src.length m) ∧
            seen1.Pairwise (fun a b => (ds ++ draws g src.length m).indexOf a <
              (ds ++ draws g src.length m).indexOf b) ∧
            out1.length = n := by
        rintro m seen1 ⟨h1, h2, h3, h4, h5, h6, h7⟩
        refine ⟨m + 1, seen1, by omega, ?_, h3, h4, ?_, ?_, h7⟩
        · rw [h2, Rand.drop_drop]
        · simpa [draws_succ] using h5
        · simpa [draws_succ] using h6
      split at h
      · next hin =>
        obtain ⟨m, seen1, hres⟩ := ih seen out (g.drop 1) (ds ++ [g 0 % src.length]) out1 g1 h hmap
          hnd (by
            intro i
            constructor
            · intro hi
              exact List.mem_append_left _ ((hmem i).mp hi)
            · intro hi
              rcases List.mem_append.mp hi with hi | hi
              · exact (hmem i).mpr hi
              · rw [List.mem_singleton.mp hi]
                exact hin) hpw1 hle
        exact hfin m seen1 hres
      · next hnin =>
        have hilt : g 0 % src.length < src.length := Nat.mod_lt _ hsrc
        rw [List.getElem?_eq_getElem hilt] at h
        simp only [] at h
        have hids : g 0 % src.length ∉ ds := fun hc => hnin ((hmem _).mpr hc)
        obtain ⟨m, seen1, hres⟩ := ih (seen ++ [g 0 % src.length])
          (out ++ [src[g 0 % src.length]]) (g.drop 1) (ds ++ [g 0 % src.length]) out1 g1 h
          (by simp [hmap, List.getElem?_eq_getElem hilt])
          (by
            rw [List.nodup_append]
            refine ⟨hnd, List.nodup_singleton _, ?_⟩
            intro a ha hb
            rw [List.mem_singleton.mp hb] at ha
            exact hnin ha)
          (by
            intro i
            simp only [List.mem_append, List.mem_singleton]
            rw [hmem i])
          (by
            rw [List.pairwise_append]
            refine ⟨hpw1, List.pairwise_singleton _ _, ?_⟩
            intro a ha b hb
            rw [List.mem_singleton.mp hb, List.indexOf_append_of_mem ((hmem a).mp ha),
              List.indexOf_append_of_not_mem hids, List.indexOf_cons_self]
            exact Nat.lt_of_lt_of_le (List.indexOf_lt_length.mpr ((hmem a).mp ha)) (by omega))
          (by simp; omega)
        exact hfin m seen1 hres
    · injection h with h
      injection h with h1 h2
      subst h1 h2
      refine ⟨0, seen, Nat.zero_le _, rfl, hmap, hnd, ?_, ?_, by omega⟩
      · simpa [draws_zero] using hmem
      · simpa [draws_zero] using hpw

/-- The loop of `sample` does not panic on a non-empty slice. -/
theorem sampleLoop_no_panic (src : List Quote) (n : Nat) (hsrc : 0 < src.length) :
    ∀ (fuel : Nat) (seen : List Nat) (out : List Quote) (g : Rand) (msg : String),
      sampleLoop src n fuel seen out g ≠ .panic msg := by
  intro fuel
  induction fuel with
  | zero =>
    intro seen out g msg h
    rw [sampleLoop] at h
    split at h <;> cases h
  | succ f ih =>
    intro seen out g msg h
    rw [sampleLoop] at h
    split at h
    · rw [Intn_pos g _ hsrc] at h
      simp only [] at h
      split at h
      · exact ih _ _ _ _ h
      · rw [List.getElem?_eq_getElem (Nat.mod_lt _ hsrc)] at h
        exact ih _ _ _ _ h
    · cases h

/-- The loop of `sample` returns within `fuel` draws as soon as the keys already
seen and the next `fuel` draws hold `n` distinct indices. -/
theorem sampleLoop_returns (src : List Quote) (n : Nat) (hsrc : 0 < src.length) :
    ∀ (fuel : Nat) (seen : List Nat) (out : List Quote) (g : Rand),
      seen.Nodup → out.length = seen.length →
      n ≤ (seen ++ draws g src.length fuel).toFinset.card →
      ∃ res, sampleLoop src n fuel seen out g = .done res := by
  intro fuel
  induction fuel with
  | zero =>
    intro seen out g hnd hlen hcard
    rw [draws_zero, List.append_nil, List.toFinset_card_of_nodup hnd] at hcard
    rw [sampleLoop, if_neg (by omega)]
    exact ⟨_, rfl⟩
  | succ f ih =>
    intro seen out g hnd hlen hcard
    rw [sampleLoop]
    split
    · rw [Intn_pos g _ hsrc]
      simp only []
      rw [draws_succ] at hcard
      split
      · next hin =>
        apply ih seen out _ hnd hlen
        have : (seen ++ g 0 % src.length :: draws (g.drop 1) src.length f).toFinset =
            (seen ++ draws (g.drop 1) src.length f).toFinset := by
          ext x
          simp only [List.mem_toFinset, List.mem_append, List.mem_cons]
          constructor
          · rintro (h | h | h)
            · exact Or.inl h
            · exact Or.inl (h ▸ hin)
            · exact Or.inr h
          · rintro (h | h)
            · exact Or.inl h
            · exact Or.inr (Or.inr h)
        rw [← this]
        exact hcard
      · next hnin =>
        rw [List.getElem?_eq_getElem (Nat.mod_lt _ hsrc)]
        simp only []
        apply ih
        · rw [List.nodup_append]
          refine ⟨hnd, List.nodup_singleton _, ?_⟩
          intro a ha hb
          rw [List.mem_singleton.mp hb] at ha
          exact hnin ha
        · simp [hlen]
        · simpa using hcard
    · exact ⟨_, rfl⟩

/-! ## `sample` -/

theorem sample_full (src : List Quote) (n : Int) (fuel : Nat) (g : Rand)
    (h : (src.length : Int) ≤ n) : sample src n fuel g = .done (Shuffle src g) := by
  unfold sample
  rw [if_pos h]

theorem sample_reject (src : List Quote) (n : Int) (fuel : Nat) (g : Rand)
    (h0 : 0 ≤ n) (h : n < (src.length : Int)) :
    sample src n fuel g = sampleLoop src n.toNat fuel [] [] g := by
  unfold sample
  rw [if_neg (by omega), if_neg (by omega)]

theorem Shuffle_length {α : Type} (cp : List α) (g : Rand) :
    (Shuffle cp g).1.length = cp.length := (Shuffle_perm cp g).length_eq

/-- Whenever `sample` returns for `n >= 0`, it returns `min n (len src)` quotes, all
of them elements of `src`. -/
theorem sample_done (src : List Quote) (n : Int) (fuel : Nat) (g : Rand) (out : List Quote)
    (g1 : Rand) (h0 : 0 ≤ n) (h : sample src n fuel g = .done (out, g1)) :
    (out.length : Int) = min n src.length ∧ ∀ q ∈ out, q ∈ src := by
  by_cases hn : (src.length : Int) ≤ n
  · rw [sample_full src n fuel g hn] at h
    injection h with h
    have h1 : out = (Shuffle src g).1 := by rw [h]
    subst h1
    refine ⟨?_, fun q hq => (Shuffle_perm src g).subset hq⟩
    rw [Shuffle_length, min_eq_right hn]
  · have hn1 : n < (src.length : Int) := by omega
    rw [sample_reject src n fuel g h0 hn1] at h
    have hsrc : 0 < src.length := by omega
    obtain ⟨m, seen1, -, -, hmap, -, -, -, hlen⟩ :=
      sampleLoop_inv src n.toNat hsrc fuel [] [] g [] out g1 h rfl List.nodup_nil (by simp)
        List.Pairwise.nil (Nat.zero_le _)
    refine ⟨?_, ?_⟩
    · rw [hlen, min_eq_left (by omega)]
      omega
    · intro q hq
      have hq1 : some q ∈ out.map some := List.mem_map_of_mem _ hq
      rw [hmap] at hq1
      obtain ⟨i, -, hi⟩ := List.mem_map.mp hq1
      exact List.getElem?_mem hi

/-- No call of `sample` with `n >= 0` panics. -/
theorem sample_no_panic (src : List Quote) (n : Int) (fuel : Nat) (g : Rand) (msg : String)
    (h0 : 0 ≤ n) : sample src n fuel g ≠ .panic msg := by
  by_cases hn : (src.length : Int) ≤ n
  · rw [sample_full src n fuel g hn]
    intro h
    cases h
  · have hn1 : n < (src.length : Int) := by omega
    rw [sample_reject src n fuel g h0 hn1]
    exact sampleLoop_no_panic src n.toNat (by omega) fuel [] [] g msg

/-- For `n >= 0`, `sample` returns within `fuel` draws when `n >= len(src)` or the
first `fuel` draws hold `n` distinct indices. -/
theorem sample_returns (src : List Quote) (n : Int) (fuel : Nat) (g : Rand) (h0 : 0 ≤ n)
    (h : (src.length : Int) ≤ n ∨ n.toNat ≤ (draws g src.length fuel).toFinset.card) :
    ∃ res, sample src n fuel g = .done res := by
  by_cases hn : (src.length : Int) ≤ n
  · exact ⟨_, sample_full src n fuel g hn⟩
  · have hn1 : n < (src.length : Int) := by omega
    rw [sample_reject src n fuel g h0 hn1]
    rcases h with h | h
    · exact absurd h hn
    · exact sampleLoop_returns src n.toNat (by omega) fuel [] [] g List.nodup_nil rfl
        (by simpa using h)

/-! ## The handler -/

theorem ToLower_eq_empty (lowerRune : Char → Char) (s : String) :
    ToLower lowerRune s = "" ↔ s = "" := by
  unfold ToLower
  constructor
  · intro h
    have h1 : (String.mk (s.data.map lowerRune)).data = ("" : String).data := by rw [h]
    have h2 : s.data = [] := by simpa using h1
    exact String.ext h2
  · intro h
    subst h
    rfl

theorem keep_iff_specMatches (lowerRune : Char → Char) (id lang category : String) (q : Quote) :
    keep lowerRune id (ToLower lowerRune lang) (ToLower lowerRune category) q = true ↔
      specMatches lowerRune id lang category q := by
  unfold keep specMatches
  have hl := ToLower_eq_empty lowerRune lang
  have hc := ToLower_eq_empty lowerRune category
  by_cases h1 : id = "" <;> by_cases h2 : q.ID = id <;>
    by_cases h3 : ToLower lowerRune lang = "" <;>
    by_cases h4 : ToLower lowerRune q.Lang = ToLower lowerRune lang <;>
    by_cases h5 : ToLower lowerRune category = "" <;>
    by_cases h6 : ToLower lowerRune q.Category = ToLower lowerRune category <;>
    simp [h1, h2, h3, h4, h5, h6, ← hl, ← hc]

theorem candidatesOf_eq (lowerRune : Char → Char) (D : List Quote) (r : Request) :
    candidatesOf lowerRune D r =
      (if specFilter lowerRune D r = [] then D else specFilter lowerRune D r,
       specFilter lowerRune D r ++ D.drop (specFilter lowerRune D r).length) := by
  have hf : D.filter (keep lowerRune (Get r.Query "id") (ToLower lowerRune (Get r.Query "lang"))
      (ToLower lowerRune (Get r.Query "category"))) = specFilter lowerRune D r := by
    unfold specFilter
    apply List.filter_congr
    intro q _
    rw [Bool.eq_iff_iff, keep_iff_specMatches]
    simp
  unfold candidatesOf
  simp only []
  rw [candidates_eq, hf]

theorem resolveLimit_range (ls : String) : 1 ≤ resolveLimit ls ∧ resolveLimit ls ≤ 100 := by
  unfold resolveLimit
  split
  · split
    · split
      · omega
      · omega
    · omega
  · omega

theorem handleGET_eq (lowerRune : Char → Char) (st : Server) (hdrs : List (String × String))
    (r : Request) (fuel : Nat) (g : Rand) :
    handleGET lowerRune st hdrs r fuel g =
      match sample (candidatesOf lowerRune st.allQuotes r).1 (limitOf r) fuel g with
      | .done (out, g1) =>
        .done ⟨⟨200, hdrs, .json [("count", JSONValue.int out.length),
          ("result", JSONValue.quotes out)] (Get r.Query "pretty" == "1")⟩,
          (candidatesOf lowerRune st.allQuotes r).2, g1⟩
      | .panic msg => .panic msg
      | .outOfFuel => .outOfFuel := rfl

theorem Handler_get (lowerRune : Char → Char) (st : Server) (r : Request) (fuel : Nat)
    (g : Rand) (hget : r.Method = "GET")
    (hinm : ¬ (Get r.Header "If-None-Match" ≠ "" ∧ Get r.Header "If-None-Match" = st.etag)) :
    Handler lowerRune st r fuel g = handleGET lowerRune st (baseHeaders st.etag) r fuel g := by
  unfold Handler
  simp only []
  rw [if_neg hinm, if_pos hget]

/-- Every finished call of `handleGET` answers 200 with `count` the length of
`result`, and `result` is what `sample` returned on the candidate list. -/
theorem handleGET_done (lowerRune : Char → Char) (st : Server) (hdrs : List (String × String))
    (r : Request) (fuel : Nat) (g : Rand) (res : Result)
    (h : handleGET lowerRune st hdrs r fuel g = .done res) :
    sample (candidatesOf lowerRune st.allQuotes r).1 (limitOf r) fuel g =
        .done (res.resp.result, res.rng) ∧
      res.resp.status = 200 ∧ res.resp.headers = hdrs ∧
      res.resp.count = some (res.resp.result.length : Int) ∧
      res.allQuotes = (candidatesOf lowerRune st.allQuotes r).2 := by
  rw [handleGET_eq] at h
  split at h
  · next out g1 hs =>
    injection h with h
    subst h
    rw [hs]
    refine ⟨rfl, rfl, rfl, rfl, rfl⟩
  · cases h
  · cases h

theorem handleGET_no_panic (lowerRune : Char → Char) (st : Server)
    (hdrs : List (String × String)) (r : Request) (fuel : Nat) (g : Rand) (msg : String) :
    handleGET lowerRune st hdrs r fuel g ≠ .panic msg := by
  rw [handleGET_eq]
  intro h
  split at h
  · cases h
  · next m hs => exact sample_no_panic _ _ _ _ m (by have := resolveLimit_range (Get r.Query "limit"); unfold limitOf; omega) hs
  · cases h

theorem handleGET_returns (lowerRune : Char → Char) (st : Server)
    (hdrs : List (String × String)) (r : Request) (fuel : Nat) (g : Rand)
    (h : ((candidatesOf lowerRune st.allQuotes r).1.length : Int) ≤ limitOf r ∨
      (limitOf r).toNat ≤
        (draws g (candidatesOf lowerRune st.allQuotes r).1.length fuel).toFinset.card) :
    ∃ res, handleGET lowerRune st hdrs r fuel g = .done res := by
  rw [handleGET_eq]
  obtain ⟨⟨out, g1⟩, hs⟩ := sample_returns (candidatesOf lowerRune st.allQuotes r).1 (limitOf r)
    fuel g (by have := resolveLimit_range (Get r.Query "limit"); unfold limitOf; omega) h
  rw [hs]
  exact ⟨_, rfl⟩

/-! ## The claims -/

/-- C1 (filter correctness).  Whenever at least one quote of the dataset matches
the request, the candidate list built by `handleGET` is exactly the list of the
quotes of the dataset, each once and in dataset order, for which every non-empty
constraint matches (`id` exactly, `lang` and `category` after lower-casing both
sides); a quote is a candidate iff it is in the dataset and matches; and the
response is built from `sample` run on exactly that list. -/
theorem C1_filter_correctness (lowerRune : Char → Char) (st : Server) (r : Request)
    (hmatch : ∃ q ∈ st.allQuotes, specMatches lowerRune (Get r.Query "id") (Get r.Query "lang")
      (Get r.Query "category") q) :
    (candidatesOf lowerRune st.allQuotes r).1 =
        st.allQuotes.filter (fun q => decide (specMatches lowerRune (Get r.Query "id")
          (Get r.Query "lang") (Get r.Query "category") q)) ∧
      (∀ q, q ∈ (candidatesOf lowerRune st.allQuotes r).1 ↔
        q ∈ st.allQuotes ∧ specMatches lowerRune (Get r.Query "id") (Get r.Query "lang")
          (Get r.Query "category") q) ∧
      (∀ (hdrs : List (String × String)) (fuel : Nat) (g : Rand) (res : Result),
        handleGET lowerRune st hdrs r fuel g = .done res →
        sample (st.allQuotes.filter (fun q => decide (specMatches lowerRune (Get r.Query "id")
          (Get r.Query "lang") (Get r.Query "category") q))) (limitOf r) fuel g =
          .done (res.resp.result, res.rng)) := by
  have hne : specFilter lowerRune st.allQuotes r ≠ [] := by
    obtain ⟨q, hq, hm⟩ := hmatch
    intro h
    have : q ∈ specFilter lowerRune st.allQuotes r := by
      unfold specFilter
      exact List.mem_filter.mpr ⟨hq, by simpa using hm⟩
    rw [h] at this
    cases this
  have hc : (candidatesOf lowerRune st.allQuotes r).1 = specFilter lowerRune st.allQuotes r := by
    rw [candidatesOf_eq, if_neg hne]
  refine ⟨hc, ?_, ?_⟩
  · intro q
    rw [hc]
    unfold specFilter
    simp [List.mem_filter]
  · intro hdrs fuel g res h
    have := (handleGET_done lowerRune st hdrs r fuel g res h).1
    rw [hc] at this
    exact this

/-- Witness of C1: on the three example quotes, `?lang=EN` selects `a` and `b`. -/
theorem C1_filter_correctness_witness :
    (∃ q ∈ exampleServer.allQuotes, specMatches asciiLower "" "EN" "" q) ∧
      (candidatesOf asciiLower exampleServer.allQuotes ⟨"GET", [], [("lang", "EN")]⟩).1 =
        [qa, qb] :=
  ⟨⟨qa, by decide, by decide⟩,
    (C1_filter_correctness asciiLower exampleServer ⟨"GET", [], [("lang", "EN")]⟩
      ⟨qa, by decide, by decide⟩).1.trans (by decide)⟩

/-- C2 (never-empty fallback).  For a non-empty dataset and a GET request
without a matching `If-None-Match`: when no quote matches the filter, the
candidate list is the full dataset (left untouched); the candidate list is
never empty; whatever the allowance of draws, the handler does not fail, and a
finished call answers 200 with `count = len(result) >= 1` and quotes of the
candidate list only; and the call finishes within `fuel` draws whenever the
limit covers the candidate list or the first `fuel` draws hold `limit` distinct
indices. -/
theorem C2_never_empty_fallback (lowerRune : Char → Char) (st : Server) (r : Request) (g : Rand)
    (hne : st.allQuotes ≠ []) (hget : r.Method = "GET")
    (hinm : ¬ (Get r.Header "If-None-Match" ≠ "" ∧ Get r.Header "If-None-Match" = st.etag)) :
    ((∀ q ∈ st.allQuotes, ¬ specMatches lowerRune (Get r.Query "id") (Get r.Query "lang")
        (Get r.Query "category") q) →
        candidatesOf lowerRune st.allQuotes r = (st.allQuotes, st.allQuotes)) ∧
      (candidatesOf lowerRune st.allQuotes r).1 ≠ [] ∧
      (∀ fuel : Nat, Handler lowerRune st r fuel g = .outOfFuel ∨
        ∃ res, Handler lowerRune st r fuel g = .done res ∧ res.resp.status = 200 ∧
          res.resp.count = some (res.resp.result.length : Int) ∧ 1 ≤ res.resp.result.length ∧
          ∀ q ∈ res.resp.result, q ∈ (candidatesOf lowerRune st.allQuotes r).1) ∧
      (∀ fuel : Nat,
        (((candidatesOf lowerRune st.allQuotes r).1.length : Int) ≤ limitOf r ∨
          (limitOf r).toNat ≤
            (draws g (candidatesOf lowerRune st.allQuotes r).1.length fuel).toFinset.card) →
        ∃ res, Handler lowerRune st r fuel g = .done res) := by
  have hlim := resolveLimit_range (Get r.Query "limit")
  have hcne : (candidatesOf lowerRune st.allQuotes r).1 ≠ [] := by
    rw [candidatesOf_eq]
    simp only []
    split
    · exact hne
    · assumption
  refine ⟨?_, hcne, ?_, ?_⟩
  · intro hnone
    have hf : specFilter lowerRune st.allQuotes r = [] := by
      unfold specFilter
      rw [List.filter_eq_nil_iff]
      intro q hq
      simpa using hnone q hq
    rw [candidatesOf_eq, hf]
    simp
  · intro fuel
    rw [Handler_get lowerRune st r fuel g hget hinm]
    cases hres : handleGET lowerRune st (baseHeaders st.etag) r fuel g with
    | outOfFuel => exact Or.inl rfl
    | panic msg => exact absurd hres (handleGET_no_panic _ _ _ _ _ _ _)
    | done res =>
      right
      obtain ⟨hs, h200, -, hcount, -⟩ := handleGET_done lowerRune st _ r fuel g res hres
      obtain ⟨hl, hsub⟩ := sample_done _ _ _ _ _ _ (by unfold limitOf; omega) hs
      refine ⟨res, rfl, h200, hcount, ?_, hsub⟩
      have hpos : 0 < (candidatesOf lowerRune st.allQuotes r).1.length :=
        List.length_pos.mpr hcne
      have h1 : (1 : Int) ≤ min (limitOf r) ((candidatesOf lowerRune st.allQuotes r).1.length) := by
        unfold limitOf
        exact le_min hlim.1 (by omega)
      omega
  · intro fuel h
    rw [Handler_get lowerRune st r fuel g hget hinm]
    exact handleGET_returns lowerRune st _ r fuel g h

/-- Witness of C2: on the three example quotes, `?category=nonexistent` matches
nothing, the candidates are all three quotes, and the call finishes after one
draw with `count = 1` and the quote `a`. -/
theorem C2_never_empty_fallback_witness :
    exampleServer.allQuotes ≠ [] ∧
      (candidatesOf asciiLower exampleServer.allQuotes
        ⟨"GET", [], [("category", "nonexistent")]⟩).1 = [qa, qb, qc] ∧
      (∃ res, Handler asciiLower exampleServer ⟨"GET", [], [("category", "nonexistent")]⟩ 1
        zeroRand = .done res) ∧
      (Handler asciiLower exampleServer ⟨"GET", [], [("category", "nonexistent")]⟩ 1
        zeroRand).outcome =
        some (⟨200, baseHeaders exampleServer.etag,
          .json [("count", .int 1), ("result", .quotes [qa])] false⟩, [qa, qb, qc]) :=
  ⟨by decide,
    congrArg Prod.fst ((C2_never_empty_fallback asciiLower exampleServer
      ⟨"GET", [], [("category", "nonexistent")]⟩ zeroRand (by decide) rfl (by decide)).1
      (by decide)),
    (C2_never_empty_fallback asciiLower exampleServer
      ⟨"GET", [], [("category", "nonexistent")]⟩ zeroRand (by decide) rfl (by decide)).2.2.2 1
      (Or.inr (by decide)),
    by decide⟩

theorem serve_cons_done (lowerRune : Char → Char) (etag : String) (r : Request) (fuel : Nat)
    (rest : List (Request × Nat)) (ds : List Quote) (g : Rand) (res : Result)
    (rs : List Response) (ds1 : List Quote) (g1 : Rand)
    (h1 : Handler lowerRune ⟨ds, etag⟩ r fuel g = .done res)
    (h2 : serve lowerRune etag rest res.allQuotes res.rng = .done (rs, ds1, g1)) :
    serve lowerRune etag ((r, fuel) :: rest) ds g = .done (res.resp :: rs, ds1, g1) := by
  rw [serve, h1]
  simp only []
  rw [h2]

/-- On the three example quotes the request `?lang=fr` finishes and leaves `allQuotes`
as `c, b, c`. -/
theorem lang_fr_overwrites (fuel : Nat) (g : Rand) :
    ∃ res, Handler asciiLower exampleServer ⟨"GET", [], [("lang", "fr")]⟩ fuel g = .done res ∧
      res.allQuotes = [qc, qb, qc] := by
  have hH := Handler_get asciiLower exampleServer ⟨"GET", [], [("lang", "fr")]⟩ fuel g rfl
    (by decide)
  obtain ⟨res, hres⟩ := handleGET_returns asciiLower exampleServer
    (baseHeaders exampleServer.etag) ⟨"GET", [], [("lang", "fr")]⟩ fuel g (Or.inl (by decide))
  have hd := (handleGET_done _ _ _ _ _ _ res hres).2.2.2.2
  have hc : (candidatesOf asciiLower exampleServer.allQuotes ⟨"GET", [], [("lang", "fr")]⟩).2 =
      [qc, qb, qc] := by decide
  rw [hc] at hd
  exact ⟨res, hH.trans hres, hd⟩

/-- C3 (dataset immutability), evaluated at the failing input: on the three
example quotes, the request `?lang=fr` finishes for every random source and
leaves `allQuotes` as `c, b, c`: the quote `a` has been overwritten. -/
theorem C3_dataset_mutated_by_filter (fuel : Nat) (g : Rand) :
    ∃ res, Handler asciiLower exampleServer ⟨"GET", [], [("lang", "fr")]⟩ fuel g = .done res ∧
      res.allQuotes = [qc, qb, qc] ∧ res.allQuotes ≠ exampleServer.allQuotes ∧
      qa ∉ res.allQuotes := by
  obtain ⟨res, hres, hd⟩ := lang_fr_overwrites fuel g
  refine ⟨res, hres, hd, ?_, ?_⟩
  · rw [hd]
    decide
  · rw [hd]
    decide

/-- C4 (no duplicates over a sequence of requests), evaluated at the failing
input: the three example quotes have pairwise distinct ids; after the request
`?lang=fr`, the request `?limit=3` finishes for every random source and its
result holds two quotes with the same id. -/
theorem C4_duplicate_ids_after_filtered_request (g : Rand) :
    (exampleServer.allQuotes.map Quote.ID).Nodup ∧
      ∃ (r1 r2 : Response) (ds : List Quote) (g1 : Rand),
        serve asciiLower exampleServer.etag
          [(⟨"GET", [], [("lang", "fr")]⟩, 0), (⟨"GET", [], [("limit", "3")]⟩, 0)]
          exampleServer.allQuotes g = .done ([r1, r2], ds, g1) ∧
        r2.status = 200 ∧ r2.result.Perm [qc, qb, qc] ∧ ¬ (r2.result.map Quote.ID).Nodup := by
  refine ⟨by decide, ?_⟩
  obtain ⟨res1, h1, hd1⟩ := lang_fr_overwrites 0 g
  have hH := Handler_get asciiLower ⟨res1.allQuotes, exampleServer.etag⟩
    ⟨"GET", [], [("limit", "3")]⟩ 0 res1.rng rfl (fun h => absurd rfl h.1)
  obtain ⟨res2, hres2⟩ := handleGET_returns asciiLower ⟨res1.allQuotes, exampleServer.etag⟩
    (baseHeaders exampleServer.etag) ⟨"GET", [], [("limit", "3")]⟩ 0 res1.rng
    (Or.inl (by rw [hd1]; decide))
  obtain ⟨hs, h200, -, -, hd2⟩ := handleGET_done _ _ _ _ _ _ res2 hres2
  simp only [] at hs
  rw [hd1] at hs
  have hc : (candidatesOf asciiLower [qc, qb, qc] ⟨"GET", [], [("limit", "3")]⟩).1 =
      [qc, qb, qc] := by decide
  rw [hc, sample_full _ _ _ _ (by decide)] at hs
  injection hs with hs
  have hperm : res2.resp.result.Perm [qc, qb, qc] := by
    have : res2.resp.result = (Shuffle [qc, qb, qc] res1.rng).1 := by rw [hs]
    rw [this]
    exact Shuffle_perm _ _
  refine ⟨res1.resp, res2.resp, res2.allQuotes, res2.rng, ?_, h200, hperm, ?_⟩
  · exact serve_cons_done _ _ _ _ _ _ _ res1 [res2.resp] _ _ h1
      (serve_cons_done _ _ _ _ _ _ _ res2 [] _ _ (hH.trans hres2) (by rw [serve]))
  · rw [(hperm.map Quote.ID).nodup_iff]
    decide

/-- Every finished call of `Handler` with status 200 is a finished call of
`handleGET`. -/
theorem Handler_200 (lowerRune : Char → Char) (st : Server) (r : Request) (fuel : Nat)
    (g : Rand) (res : Result) (h : Handler lowerRune st r fuel g = .done res)
    (h200 : res.resp.status = 200) :
    handleGET lowerRune st (baseHeaders st.etag) r fuel g = .done res := by
  unfold Handler at h
  simp only [] at h
  split at h
  · injection h with h
    subst h
    cases h200
  · split at h
    · exact h
    · injection h with h
      subst h
      cases h200

/-- C5 (count bound).  For every finished call of `Handler` with status 200,
`count = len(result) = min(limit, len(candidates))`, where the limit is the
resolved limit, in `[1, 100]`, and the candidates are the matching quotes of the
dataset, or the whole dataset when none matches. -/
theorem C5_count_bound (lowerRune : Char → Char) (st : Server) (r : Request) (fuel : Nat)
    (g : Rand) (res : Result) (h : Handler lowerRune st r fuel g = .done res)
    (h200 : res.resp.status = 200) :
    res.resp.count = some (res.resp.result.length : Int) ∧
      (res.resp.result.length : Int) =
        min (limitOf r) ((candidatesOf lowerRune st.allQuotes r).1.length : Int) ∧
      1 ≤ limitOf r ∧ limitOf r ≤ 100 ∧
      (candidatesOf lowerRune st.allQuotes r).1 =
        (if st.allQuotes.filter (fun q => decide (specMatches lowerRune (Get r.Query "id")
            (Get r.Query "lang") (Get r.Query "category") q)) = [] then st.allQuotes
          else st.allQuotes.filter (fun q => decide (specMatches lowerRune (Get r.Query "id")
            (Get r.Query "lang") (Get r.Query "category") q))) := by
  have hlim := resolveLimit_range (Get r.Query "limit")
  have hg := Handler_200 lowerRune st r fuel g res h h200
  obtain ⟨hs, -, -, hcount, -⟩ := handleGET_done lowerRune st _ r fuel g res hg
  obtain ⟨hl, -⟩ := sample_done _ _ _ _ _ _ (by unfold limitOf; omega) hs
  refine ⟨hcount, hl, hlim.1, hlim.2, ?_⟩
  rw [candidatesOf_eq]
  rfl

/-- Witness of C5: the three example quotes, `?lang=en&limit=5`: the candidates are
`a` and `b`, the limit is 5 and `count = 2`. -/
theorem C5_count_bound_witness :
    ∃ res, Handler asciiLower exampleServer ⟨"GET", [], [("lang", "en"), ("limit", "5")]⟩ 0
        zeroRand = .done res ∧ res.resp.status = 200 ∧ res.resp.count = some 2 ∧
      res.resp.result.length = 2 := by
  obtain ⟨res, hres⟩ := handleGET_returns asciiLower exampleServer
    (baseHeaders exampleServer.etag) ⟨"GET", [], [("lang", "en"), ("limit", "5")]⟩ 0 zeroRand
    (Or.inl (by decide))
  have hH := (Handler_get asciiLower exampleServer ⟨"GET", [], [("lang", "en"), ("limit", "5")]⟩
    0 zeroRand rfl (by decide)).trans hres
  have h200 := (handleGET_done _ _ _ _ _ _ res hres).2.1
  obtain ⟨hc, hl, -, -, -⟩ := C5_count_bound asciiLower exampleServer
    ⟨"GET", [], [("lang", "en"), ("limit", "5")]⟩ 0 zeroRand res hH h200
  have hmin : min (limitOf ⟨"GET", [], [("lang", "en"), ("limit", "5")]⟩)
      ((candidatesOf asciiLower exampleServer.allQuotes
        ⟨"GET", [], [("lang", "en"), ("limit", "5")]⟩).1.length : Int) = 2 := by decide
  rw [hmin] at hl
  refine ⟨res, hH, h200, ?_, by exact_mod_cast hl⟩
  rw [hc, hl]

/-- C6 (limit resolution).  For every value of the `limit` parameter the effective
limit is `n` when the value parses as an integer `n` with `1 <= n <= 100`, and 1
in every other case; it always lies in `[1, 100]`; the values `0`, `-5`, `abc`,
`101`, the empty value, an absent parameter and a value too large for an `int`
all give 1, as `limit=1` does; and the decimal numeral of every `n` in
`[1, 100]` gives `n`. -/
theorem C6_limit_resolution (ls : String) :
    (resolveLimit ls =
      match Atoi ls with
      | some n => if 1 ≤ n ∧ n ≤ 100 then n else 1
      | none => 1) ∧
      1 ≤ resolveLimit ls ∧ resolveLimit ls ≤ 100 ∧
      resolveLimit "1" = 1 ∧ resolveLimit "0" = 1 ∧ resolveLimit "-5" = 1 ∧
      resolveLimit "abc" = 1 ∧ resolveLimit "101" = 1 ∧ resolveLimit "" = 1 ∧
      resolveLimit "99999999999999999999" = 1 ∧
      limitOf ⟨"GET", [], []⟩ = 1 ∧
      ∀ n : Fin 100, resolveLimit (toString (n.val + 1)) = (n.val : Int) + 1 := by
  refine ⟨?_, (resolveLimit_range ls).1, (resolveLimit_range ls).2, by decide, by decide,
    by decide, by decide, by decide, by decide, by decide, by decide, by decide⟩
  unfold resolveLimit
  by_cases h : ls = ""
  · subst h
    decide
  · rw [if_pos h]
    cases Atoi ls with
    | none => rfl
    | some n =>
      simp only []
      by_cases h1 : n > 0 ∧ n ≤ 100
      · rw [if_pos h1, if_pos ⟨by omega, h1.2⟩]
      · rw [if_neg h1, if_neg (by omega)]

/-- C7 (full-sample branch).  For every list `src`, every `n >= len(src)` and every
random source, `sample` returns (whatever the allowance of draws) a permutation
of `src`: same length, same multiset of quotes, and the quotes of `src` read at
a permutation of the positions `0 .. len(src)-1`. -/
theorem C7_full_sample_permutation (src : List Quote) (n : Int) (fuel : Nat) (g : Rand)
    (hn : (src.length : Int) ≤ n) :
    ∃ (out : List Quote) (g1 : Rand), sample src n fuel g = .done (out, g1) ∧
      out.length = src.length ∧ out.Perm src ∧
      ∃ idxs : List Nat, idxs.Perm (List.range src.length) ∧
        out.map some = idxs.map (fun i => src[i]?) := by
  refine ⟨(Shuffle src g).1, (Shuffle src g).2, sample_full src n fuel g hn,
    Shuffle_length src g, Shuffle_perm src g, (Shuffle (List.range src.length) g).1, ?_,
    Shuffle_positions src g⟩
  exact Shuffle_perm _ _

/-- Witness of C7: the candidates `a, b` with limit 5. -/
theorem C7_full_sample_permutation_witness :
    (([qa, qb] : List Quote).length : Int) ≤ 5 ∧
      ∃ (out : List Quote) (g1 : Rand), sample [qa, qb] 5 0 countingRand = .done (out, g1) ∧
        out.length = ([qa, qb] : List Quote).length ∧ out.Perm [qa, qb] ∧
        ∃ idxs : List Nat, idxs.Perm (List.range ([qa, qb] : List Quote).length) ∧
          out.map some = idxs.map (fun i => ([qa, qb] : List Quote)[i]?) :=
  ⟨by decide, C7_full_sample_permutation [qa, qb] 5 0 countingRand (by decide)⟩

/-- C8 (partial-sample branch).  For every list `src`, every `n` with
`0 <= n < len(src)` and every random source on which `sample` returns, the result
has exactly `n` quotes; they are the elements of `src` at indices `idxs` that are
pairwise distinct and in range; `idxs` are exactly the indices drawn, ordered by
their first draw; and every returned quote is a member of `src`. -/
theorem C8_rejection_sample_distinct (src : List Quote) (n : Int) (fuel : Nat) (g : Rand)
    (out : List Quote) (g1 : Rand) (h0 : 0 ≤ n) (hn : n < (src.length : Int))
    (h : sample src n fuel g = .done (out, g1)) :
    (out.length : Int) = n ∧ (∀ q ∈ out, q ∈ src) ∧
      ∃ (m : Nat) (idxs : List Nat), m ≤ fuel ∧ g1 = g.drop m ∧
        idxs.Nodup ∧ (∀ i ∈ idxs, i < src.length) ∧
        out.map some = idxs.map (fun i => src[i]?) ∧
        (∀ i, i ∈ idxs ↔ i ∈ draws g src.length m) ∧
        idxs.Pairwise (fun a b =>
          (draws g src.length m).indexOf a < (draws g src.length m).indexOf b) := by
  have hd := sample_done src n fuel g out g1 h0 h
  rw [sample_reject src n fuel g h0 hn] at h
  have hsrc : 0 < src.length := by omega
  obtain ⟨m, idxs, hm, hg, hmap, hnd, hmem, hpw, -⟩ :=
    sampleLoop_inv src n.toNat hsrc fuel [] [] g [] out g1 h rfl List.nodup_nil (by simp)
      List.Pairwise.nil (Nat.zero_le _)
  refine ⟨?_, hd.2, m, idxs, hm, hg, hnd, ?_, hmap, ?_, ?_⟩
  · rw [hd.1, min_eq_left (by omega)]
  · intro i hi
    exact draws_lt g src.length m hsrc i (by simpa using (hmem i).mp hi)
  · simpa using hmem
  · simpa using hpw

/-- Witness of C8: two of the three example quotes on the draws 0, 0, 1: the
repeated draw is rejected and `a, b` is returned after three draws. -/
theorem C8_rejection_sample_distinct_witness :
    sample [qa, qb, qc] 2 3 stutterRand = .done ([qa, qb], stutterRand.drop 3) ∧
      (([qa, qb] : List Quote).length : Int) = 2 ∧ (∀ q ∈ [qa, qb], q ∈ [qa, qb, qc]) ∧
      ∃ (m : Nat) (idxs : List Nat), m ≤ 3 ∧ stutterRand.drop 3 = stutterRand.drop m ∧
        idxs.Nodup ∧ (∀ i ∈ idxs, i < ([qa, qb, qc] : List Quote).length) ∧
        ([qa, qb] : List Quote).map some = idxs.map (fun i => ([qa, qb, qc] : List Quote)[i]?) ∧
        (∀ i, i ∈ idxs ↔ i ∈ draws stutterRand ([qa, qb, qc] : List Quote).length m) ∧
        idxs.Pairwise (fun a b =>
          (draws stutterRand ([qa, qb, qc] : List Quote).length m).indexOf a <
            (draws stutterRand ([qa, qb, qc] : List Quote).length m).indexOf b) :=
  ⟨rfl, C8_rejection_sample_distinct [qa, qb, qc] 2 3 stutterRand [qa, qb] (stutterRand.drop 3)
    (by decide) (by decide) rfl⟩

/-- C9 (conditional GET).  For every GET request: when `If-None-Match` is
non-empty and equal to the ETag, the handler answers 304 with an empty body
whatever the query, leaving the dataset and the random source as they were;
otherwise the call is the call of `handleGET` (filter, then sample), which does
not panic, answers 200 whenever it finishes, and finishes within `fuel` draws
whenever the limit covers the candidates or the first `fuel` draws hold `limit`
distinct indices.  Hence a finished call answers 304 iff the header matches. -/
theorem C9_conditional_get (lowerRune : Char → Char) (st : Server) (r : Request) (fuel : Nat)
    (g : Rand) (hget : r.Method = "GET") :
    ((Get r.Header "If-None-Match" ≠ "" ∧ Get r.Header "If-None-Match" = st.etag) →
        ∀ query : List (String × String),
          Handler lowerRune st ⟨r.Method, r.Header, query⟩ fuel g =
            .done ⟨⟨304, baseHeaders st.etag, .empty⟩, st.allQuotes, g⟩) ∧
      (¬ (Get r.Header "If-None-Match" ≠ "" ∧ Get r.Header "If-None-Match" = st.etag) →
        Handler lowerRune st r fuel g = handleGET lowerRune st (baseHeaders st.etag) r fuel g ∧
        (∀ msg, Handler lowerRune st r fuel g ≠ .panic msg) ∧
        (∀ res, Handler lowerRune st r fuel g = .done res →
          res.resp.status = 200 ∧
          sample (candidatesOf lowerRune st.allQuotes r).1 (limitOf r) fuel g =
            .done (res.resp.result, res.rng)) ∧
        ((((candidatesOf lowerRune st.allQuotes r).1.length : Int) ≤ limitOf r ∨
          (limitOf r).toNat ≤
            (draws g (candidatesOf lowerRune st.allQuotes r).1.length fuel).toFinset.card) →
          ∃ res, Handler lowerRune st r fuel g = .done res)) ∧
      (∀ res, Handler lowerRune st r fuel g = .done res →
        ((res.resp.status = 304 ∧ res.resp.body = .empty) ↔
          (Get r.Header "If-None-Match" ≠ "" ∧ Get r.Header "If-None-Match" = st.etag))) := by
  have h304 : (Get r.Header "If-None-Match" ≠ "" ∧ Get r.Header "If-None-Match" = st.etag) →
      ∀ query : List (String × String),
        Handler lowerRune st ⟨r.Method, r.Header, query⟩ fuel g =
          .done ⟨⟨304, baseHeaders st.etag, .empty⟩, st.allQuotes, g⟩ := by
    intro hm query
    unfold Handler
    simp only []
    rw [if_pos hm]
  refine ⟨h304, ?_, ?_⟩
  · intro hinm
    have hH := Handler_get lowerRune st r fuel g hget hinm
    refine ⟨hH, ?_, ?_, ?_⟩
    · intro msg
      rw [hH]
      exact handleGET_no_panic _ _ _ _ _ _ _
    · intro res hres
      rw [hH] at hres
      have hd := handleGET_done _ _ _ _ _ _ res hres
      exact ⟨hd.2.1, hd.1⟩
    · intro h
      rw [hH]
      exact handleGET_returns lowerRune st _ r fuel g h
  · intro res hres
    by_cases hinm : Get r.Header "If-None-Match" ≠ "" ∧ Get r.Header "If-None-Match" = st.etag
    · have := h304 hinm r.Query
      rw [hres] at this
      injection this with this
      subst this
      exact ⟨fun _ => hinm, fun _ => ⟨rfl, rfl⟩⟩
    · rw [Handler_get lowerRune st r fuel g hget hinm] at hres
      have h200 := (handleGET_done _ _ _ _ _ _ res hres).2.1
      constructor
      · intro h
        rw [h200] at h
        exact absurd h.1 (by decide)
      · intro h
        exact absurd h hinm

/-- Witness of C9: `If-None-Match` equal to the ETag of the example state gives 304
although the query asks for `?lang=fr&limit=7`; without the header the same
request is answered 200. -/
theorem C9_conditional_get_witness :
    Handler asciiLower exampleServer
        ⟨"GET", [("If-None-Match", exampleServer.etag)], [("lang", "fr"), ("limit", "7")]⟩ 0
        zeroRand =
        .done ⟨⟨304, baseHeaders exampleServer.etag, .empty⟩, exampleServer.allQuotes, zeroRand⟩ ∧
      ∃ res, Handler asciiLower exampleServer ⟨"GET", [], [("lang", "fr"), ("limit", "7")]⟩ 0
        zeroRand = .done res ∧ res.resp.status = 200 :=
  ⟨(C9_conditional_get asciiLower exampleServer
      ⟨"GET", [("If-None-Match", exampleServer.etag)], []⟩ 0 zeroRand rfl).1 (by decide)
      [("lang", "fr"), ("limit", "7")],
    ((C9_conditional_get asciiLower exampleServer ⟨"GET", [], [("lang", "fr"), ("limit", "7")]⟩
      0 zeroRand rfl).2.1 (by decide)).2.2.2 (Or.inl (by decide)) |>.imp
      (fun res hres => ⟨hres, (((C9_conditional_get asciiLower exampleServer
        ⟨"GET", [], [("lang", "fr"), ("limit", "7")]⟩ 0 zeroRand rfl).2.1
        (by decide)).2.2.1 res hres).1⟩)⟩

/-- Counterexample to C10 as stated: a POST request whose `If-None-Match` equals the
ETag is answered 304 with an empty body, not 405. -/
theorem C10_counterexample :
    (⟨"POST", [("If-None-Match", exampleServer.etag)], []⟩ : Request).Method ≠ "GET" ∧
      (Handler asciiLower exampleServer ⟨"POST", [("If-None-Match", exampleServer.etag)], []⟩ 0
        zeroRand).outcome =
        some (⟨304, baseHeaders exampleServer.etag, .empty⟩, exampleServer.allQuotes) ∧
      ¬ ∀ (st : Server) (r : Request) (fuel : Nat) (g : Rand), r.Method ≠ "GET" →
        ∃ res, Handler asciiLower st r fuel g = .done res ∧ res.resp.status = 405 := by
  refine ⟨by decide, by decide, ?_⟩
  intro hall
  obtain ⟨res, hres, h405⟩ := hall exampleServer
    ⟨"POST", [("If-None-Match", exampleServer.etag)], []⟩ 0 zeroRand (by decide)
  have h : Handler asciiLower exampleServer
      ⟨"POST", [("If-None-Match", exampleServer.etag)], []⟩ 0 zeroRand =
      .done ⟨⟨304, baseHeaders exampleServer.etag, .empty⟩, exampleServer.allQuotes,
        zeroRand⟩ := by
    unfold Handler
    simp only []
    rw [if_pos (by decide)]
  rw [h] at hres
  injection hres with hres
  subst hres
  cases h405

/-- C10 as amended (method not allowed).  For every request whose method is not
GET: when `If-None-Match` is empty or differs from the ETag, the handler answers
405 with the JSON body whose only member is `error` with the value
`method_not_allowed`, whatever the other headers and the query, leaving the
dataset and the random source as they were; when `If-None-Match` equals the
ETag, the short-circuit comes first and the answer is 304 with an empty body. -/
theorem C10_method_not_allowed (lowerRune : Char → Char) (st : Server) (r : Request)
    (fuel : Nat) (g : Rand) (hm : r.Method ≠ "GET") :
    (¬ (Get r.Header "If-None-Match" ≠ "" ∧ Get r.Header "If-None-Match" = st.etag) →
        Handler lowerRune st r fuel g =
          .done ⟨⟨405, baseHeaders st.etag, .json [("error", .str "method_not_allowed")] false⟩,
            st.allQuotes, g⟩) ∧
      ((Get r.Header "If-None-Match" ≠ "" ∧ Get r.Header "If-None-Match" = st.etag) →
        Handler lowerRune st r fuel g =
          .done ⟨⟨304, baseHeaders st.etag, .empty⟩, st.allQuotes, g⟩) := by
  constructor
  · intro hinm
    unfold Handler
    simp only []
    rw [if_neg hinm, if_neg hm]
  · intro hinm
    unfold Handler
    simp only []
    rw [if_pos hinm]

/-- Witness of C10 as amended: a POST without `If-None-Match` is answered 405. -/
theorem C10_method_not_allowed_witness :
    (⟨"POST", [], [("lang", "fr")]⟩ : Request).Method ≠ "GET" ∧
      Handler asciiLower exampleServer ⟨"POST", [], [("lang", "fr")]⟩ 0 zeroRand =
        .done ⟨⟨405, baseHeaders exampleServer.etag,
          .json [("error", .str "method_not_allowed")] false⟩, exampleServer.allQuotes,
          zeroRand⟩ :=
  ⟨by decide, (C10_method_not_allowed asciiLower exampleServer ⟨"POST", [], [("lang", "fr")]⟩ 0
    zeroRand (by decide)).1 (by decide)⟩

/-- Every finished call of `Handler` carries the five headers set first, and its
status is 200, 304 or 405. -/
theorem Handler_headers (lowerRune : Char → Char) (st : Server) (r : Request) (fuel : Nat)
    (g : Rand) (res : Result) (h : Handler lowerRune st r fuel g = .done res) :
    res.resp.headers = baseHeaders st.etag ∧
      (res.resp.status = 200 ∨ res.resp.status = 304 ∨ res.resp.status = 405) := by
  unfold Handler at h
  simp only [] at h
  split at h
  · injection h with h
    subst h
    exact ⟨rfl, Or.inr (Or.inl rfl)⟩
  · split at h
    · have hd := handleGET_done _ _ _ _ _ _ res h
      exact ⟨hd.2.2.1, Or.inl hd.2.1⟩
    · injection h with h
      subst h
      exact ⟨rfl, Or.inr (Or.inr rfl)⟩

/-- Counterexample to C11 as stated: the `Vary` header of the response to a plain GET
on the example state has the value `Origin,Accept-Encoding,If-None-Match`, without
blanks after the commas, not the value the claim gives. -/
theorem C11_counterexample :
    (Handler asciiLower exampleServer ⟨"GET", [], []⟩ 1 zeroRand).outcome.map
        (fun p => (p.1.status, Get p.1.headers "Vary")) =
        some (200, "Origin,Accept-Encoding,If-None-Match") ∧
      "Origin,Accept-Encoding,If-None-Match" ≠ "Origin, Accept-Encoding, If-None-Match" := by
  constructor
  · decide
  · decide

/-- C11 as amended (response headers).  Every response produced by `Handler`,
whatever its status (200, 304 or 405), carries exactly the five headers
`Access-Control-Allow-Origin: *`, `Vary: Origin,Accept-Encoding,If-None-Match`
(no blank after the commas), `Cache-Control: public, s-maxage=600,
stale-while-revalidate=86400`, `ETag` with the token of the state, and
`Content-Type: application/json; charset=utf-8`; and the token that `init`
stores is `W/"<hex>"` with the lower-case hexadecimal SHA-1 sum of the
embedded bytes. -/
theorem C11_response_headers (lowerRune : Char → Char) (st : Server) (r : Request)
    (fuel : Nat) (g : Rand) (res : Result) (h : Handler lowerRune st r fuel g = .done res) :
    res.resp.headers =
        [("Access-Control-Allow-Origin", "*"),
         ("Vary", "Origin,Accept-Encoding,If-None-Match"),
         ("Cache-Control", "public, s-maxage=600, stale-while-revalidate=86400"),
         ("ETag", st.etag),
         ("Content-Type", "application/json; charset=utf-8")] ∧
      Get res.resp.headers "Access-Control-Allow-Origin" = "*" ∧
      Get res.resp.headers "Vary" = "Origin,Accept-Encoding,If-None-Match" ∧
      Get res.resp.headers "Cache-Control" =
        "public, s-maxage=600, stale-while-revalidate=86400" ∧
      Get res.resp.headers "ETag" = st.etag ∧
      Get res.resp.headers "Content-Type" = "application/json; charset=utf-8" ∧
      (res.resp.status = 200 ∨ res.resp.status = 304 ∨ res.resp.status = 405) ∧
      (∀ (Unmarshal : List Nat → Option (List Quote)) (sha1Sum : List Nat → List Nat)
        (quotesJSON : List Nat), init Unmarshal sha1Sum quotesJSON = .done st →
        Unmarshal quotesJSON = some st.allQuotes ∧
        st.etag = "W/\"" ++ hexOf (sha1Sum quotesJSON) ++ "\"") := by
  obtain ⟨hh, hs⟩ := Handler_headers lowerRune st r fuel g res h
  rw [hh]
  refine ⟨rfl, rfl, rfl, rfl, ?_, rfl, hs, ?_⟩
  · simp [Get, baseHeaders]
  · intro Unmarshal sha1Sum quotesJSON hinit
    unfold init at hinit
    split at hinit
    · cases hinit
    · next qs hq =>
      injection hinit with hinit
      subst hinit
      exact ⟨hq, rfl⟩

/-- Witness of C11 as amended: a POST on the example state is answered 405 with the
five headers, the `ETag` being the token of the state. -/
theorem C11_response_headers_witness :
    ∃ res, Handler asciiLower exampleServer ⟨"POST", [], []⟩ 0 zeroRand = .done res ∧
      res.resp.status = 405 ∧
      Get res.resp.headers "Vary" = "Origin,Accept-Encoding,If-None-Match" ∧
      Get res.resp.headers "ETag" = "W/\"2fd4e1c67a2d28fced849ee1bb76e7391b93eb12\"" :=
  ⟨⟨⟨405, baseHeaders exampleServer.etag, .json [("error", .str "method_not_allowed")] false⟩,
      exampleServer.allQuotes, zeroRand⟩, rfl, rfl,
    (C11_response_headers asciiLower exampleServer ⟨"POST", [], []⟩ 0 zeroRand _ rfl).2.2.1,
    (C11_response_headers asciiLower exampleServer ⟨"POST", [], []⟩ 0 zeroRand _ rfl).2.2.2.2.1.trans
      (by decide)⟩

/-! ## The states of the filter loop -/

/-- Invariant of the filter loop: at every state the write position is the number
of quotes kept so far, at most the read position, and the array is the kept
quotes followed by the original array from the write position on. -/
theorem filterStates_inv (lowerRune : Char → Char) (id lang cat : String) (D : List Quote) :
    ∀ (steps i k : Nat) (pre : List Quote), steps + i = D.length →
      pre = (D.take i).filter (keep lowerRune id lang cat) → pre.length = k → k ≤ i →
      ∀ s ∈ filterStates lowerRune id lang cat steps i k (pre ++ D.drop k),
        s.2.1 ≤ s.1 ∧ s.1 ≤ D.length ∧
          s.2.1 = ((D.take s.1).filter (keep lowerRune id lang cat)).length ∧
          s.2.2 = (D.take s.1).filter (keep lowerRune id lang cat) ++ D.drop s.2.1 := by
  intro steps
  induction steps with
  | zero =>
    intro i k pre hi hpre hlen hk s hs
    rw [filterStates, List.mem_singleton] at hs
    subst hs
    subst hpre
    exact ⟨hk, by omega, hlen.symm, rfl⟩
  | succ st ih =>
    intro i k pre hi hpre hlen hk s hs
    have hlt : i < D.length := by omega
    have hget : (pre ++ D.drop k)[i]? = some D[i] := by
      rw [List.getElem?_append_right (by omega), List.getElem?_drop]
      have : k + (i - pre.length) = i := by omega
      rw [this]
      exact List.getElem?_eq_getElem hlt
    have hklt : k < D.length := by omega
    have hset : (pre ++ D.drop k).set k D[i] = (pre ++ [D[i]]) ++ D.drop (k + 1) := by
      rw [List.set_append_right _ _ (by omega), hlen, Nat.sub_self,
        List.drop_eq_getElem_cons hklt, List.set_cons_zero]
      simp
    have htake : D.take (i + 1) = D.take i ++ [D[i]] := by
      rw [List.take_succ, List.getElem?_eq_getElem hlt]
      rfl
    have hhere : (i, k, pre ++ D.drop k).2.1 ≤ (i, k, pre ++ D.drop k).1 ∧
        (i, k, pre ++ D.drop k).1 ≤ D.length ∧
        (i, k, pre ++ D.drop k).2.1 =
          ((D.take (i, k, pre ++ D.drop k).1).filter (keep lowerRune id lang cat)).length ∧
        (i, k, pre ++ D.drop k).2.2 =
          (D.take (i, k, pre ++ D.drop k).1).filter (keep lowerRune id lang cat) ++
            D.drop (i, k, pre ++ D.drop k).2.1 := by
      subst hpre
      exact ⟨hk, by omega, hlen.symm, rfl⟩
    rw [filterStates, hget] at hs
    simp only [] at hs
    by_cases hkeep : keep lowerRune id lang cat D[i] = true
    · rw [if_pos hkeep, List.mem_cons] at hs
      rcases hs with hs | hs
      · rw [hs]
        exact hhere
      · rw [hset] at hs
        refine ih (i + 1) (k + 1) (pre ++ [D[i]]) (by omega) ?_ (by simp [hlen]) (by omega) s hs
        rw [htake, List.filter_append, ← hpre]
        simp [List.filter_cons_of_pos hkeep]
    · rw [if_neg hkeep, List.mem_cons] at hs
      rcases hs with hs | hs
      · rw [hs]
        exact hhere
      · refine ih (i + 1) k pre (by omega) ?_ hlen (by omega) s hs
        rw [htake, List.filter_append, ← hpre]
        simp [List.filter_cons_of_neg hkeep]

/-- The last state of the filter loop is reached at read position `len` and holds
the result of `filterLoop`. -/
theorem filterStates_final (lowerRune : Char → Char) (id lang cat : String) :
    ∀ (steps i k : Nat) (arr : List Quote), steps + i ≤ arr.length →
      (steps + i, filterLoop lowerRune id lang cat steps i k arr) ∈
        filterStates lowerRune id lang cat steps i k arr := by
  intro steps
  induction steps with
  | zero =>
    intro i k arr _
    rw [filterStates, filterLoop, Nat.zero_add]
    exact List.mem_singleton.mpr rfl
  | succ st ih =>
    intro i k arr hi
    have hlt : i < arr.length := by omega
    rw [filterStates, filterLoop, List.getElem?_eq_getElem hlt]
    simp only []
    have hadd : st + 1 + i = st + (i + 1) := by omega
    by_cases hkeep : keep lowerRune id lang cat arr[i] = true
    · rw [if_pos hkeep, if_pos hkeep, hadd]
      exact List.mem_cons_of_mem _ (ih (i + 1) (k + 1) _ (by simp; omega))
    · rw [if_neg hkeep, if_neg hkeep, hadd]
      exact List.mem_cons_of_mem _ (ih (i + 1) k _ (by omega))

/-- C13 (in-place filtering is pure filtering within one request).  For every
dataset and filter: at every state of the loop that appends into the
dataset's own backing array the write position is at most the read position,
the part of the array not yet read is that of the dataset as it was, so the
quote read is the original one, and the part written is the pure filter of
the part already read; the loop ends at read position `len` with the state
`filterLoop` returns, whose written part is the pure filter of the original
dataset; and the list handed to `sample` is that pure filter whenever it is
non-empty. -/
theorem C13_in_place_filter_is_pure (lowerRune : Char → Char) (D : List Quote)
    (id lang cat : String) :
    (∀ s ∈ filterStates lowerRune id lang cat D.length 0 0 D,
        s.2.1 ≤ s.1 ∧ s.2.2.length = D.length ∧ s.2.2.drop s.1 = D.drop s.1 ∧
          s.2.2[s.1]? = D[s.1]? ∧
          s.2.2.take s.2.1 = (D.take s.1).filter (keep lowerRune id lang cat)) ∧
      (D.length, filterLoop lowerRune id lang cat D.length 0 0 D) ∈
        filterStates lowerRune id lang cat D.length 0 0 D ∧
      (filterLoop lowerRune id lang cat D.length 0 0 D).2.take
          (filterLoop lowerRune id lang cat D.length 0 0 D).1 =
        D.filter (keep lowerRune id lang cat) ∧
      (candidates lowerRune D id lang cat).1 =
        (if D.filter (keep lowerRune id lang cat) = [] then D
          else D.filter (keep lowerRune id lang cat)) := by
  refine ⟨?_, ?_, ?_, ?_⟩
  · intro s hs
    obtain ⟨h1, h2, h3, h4⟩ := filterStates_inv lowerRune id lang cat D D.length 0 0 []
      (by simp) (by simp) rfl (le_refl 0) s (by simpa using hs)
    have hdrop : s.2.2.drop s.1 = D.drop s.1 := by
      rw [h4, List.drop_append_eq_append_drop, List.drop_of_length_le (by omega), ← h3,
        List.nil_append, List.drop_drop]
      congr 1
      omega
    refine ⟨h1, ?_, hdrop, ?_, ?_⟩
    · rw [h4, List.length_append, List.length_drop, ← h3]
      omega
    · have := congrArg (fun l => l[0]?) hdrop
      simpa using this
    · rw [h4, h3, List.take_left']
      rfl
  · have := filterStates_final lowerRune id lang cat D.length 0 0 D (by simp)
    simpa using this
  · rw [filterLoop_eq]
    simp
  · rw [candidates_eq]

/-- The states of the loop on the three example quotes with `lang = fr`: the write
position stays 0 until `c` is read at position 2 and written to slot 0. -/
theorem filterStates_example :
    filterStates asciiLower "" "fr" "" 3 0 0 [qa, qb, qc] =
      [(0, 0, [qa, qb, qc]), (1, 0, [qa, qb, qc]), (2, 0, [qa, qb, qc]),
        (3, 1, [qc, qb, qc])] := by
  decide

/-- Witness of C13: on the three example quotes with `lang = fr` the loop ends in the
state with read position 3, write position 1 and array `c, b, c`, whose written
part is the pure filter of the original quotes. -/
theorem C13_in_place_filter_is_pure_witness :
    (3, 1, [qc, qb, qc]) ∈ filterStates asciiLower "" "fr" "" 3 0 0 [qa, qb, qc] ∧
      (1 : Nat) ≤ 3 ∧
      ([qc, qb, qc] : List Quote).take 1 =
        (([qa, qb, qc] : List Quote).take 3).filter (keep asciiLower "" "fr" "") :=
  ⟨by decide,
    ((C13_in_place_filter_is_pure asciiLower [qa, qb, qc] "" "fr" "").1 (3, 1, [qc, qb, qc])
      (by decide)).1,
    ((C13_in_place_filter_is_pure asciiLower [qa, qb, qc] "" "fr" "").1 (3, 1, [qc, qb, qc])
      (by decide)).2.2.2.2⟩

/-! ## The effect of a request on the dataset -/

/-- A finished call of `Handler` with a status other than 200 leaves the dataset
and the random source as they were. -/
theorem Handler_not_200 (lowerRune : Char → Char) (st : Server) (r : Request) (fuel : Nat)
    (g : Rand) (res : Result) (h : Handler lowerRune st r fuel g = .done res)
    (hs : res.resp.status ≠ 200) : res.allQuotes = st.allQuotes ∧ res.rng = g := by
  unfold Handler at h
  simp only [] at h
  split at h
  · injection h with h
    subst h
    exact ⟨rfl, rfl⟩
  · split at h
    · exact absurd (handleGET_done _ _ _ _ _ _ res h).2.1 hs
    · injection h with h
      subst h
      exact ⟨rfl, rfl⟩

/-- The array left by the filter stage: the matching quotes, then the original
array from their number on. -/
theorem candidatesOf_array (lowerRune : Char → Char) (D : List Quote) (r : Request) :
    (candidatesOf lowerRune D r).2 =
      specFilter lowerRune D r ++ D.drop (specFilter lowerRune D r).length := by
  rw [candidatesOf_eq]

theorem specFilter_length_le (lowerRune : Char → Char) (D : List Quote) (r : Request) :
    (specFilter lowerRune D r).length ≤ D.length := by
  unfold specFilter
  exact List.length_filter_le _ _

/-- C14 (exact effect of a request on the dataset).  For every finished call of
`Handler` on the dataset `D`: with status 200 (the call went through
`handleGET`) the dataset afterwards is the `k` matching quotes of `D` in order
followed by the elements of `D` from position `k` on, so it has the length of
`D`, and it is `D` itself when no quote matches; with status 304 or 405 it is
`D`; it does not depend on the limit's sample, that is on the allowance of
draws and the random source; every element of it is an element of `D`, and it
is non-empty when `D` is. -/
theorem C14_effect_on_dataset (lowerRune : Char → Char) (st : Server) (r : Request)
    (fuel : Nat) (g : Rand) (res : Result) (h : Handler lowerRune st r fuel g = .done res) :
    (res.resp.status = 200 →
        res.allQuotes = specFilter lowerRune st.allQuotes r ++
          st.allQuotes.drop (specFilter lowerRune st.allQuotes r).length ∧
        res.allQuotes.take (specFilter lowerRune st.allQuotes r).length =
          specFilter lowerRune st.allQuotes r ∧
        res.allQuotes.drop (specFilter lowerRune st.allQuotes r).length =
          st.allQuotes.drop (specFilter lowerRune st.allQuotes r).length ∧
        (specFilter lowerRune st.allQuotes r = [] → res.allQuotes = st.allQuotes)) ∧
      (res.resp.status = 304 ∨ res.resp.status = 405 → res.allQuotes = st.allQuotes) ∧
      res.allQuotes.length = st.allQuotes.length ∧
      (∀ (fuel1 : Nat) (g1 : Rand) (res1 : Result),
        Handler lowerRune st r fuel1 g1 = .done res1 → res1.allQuotes = res.allQuotes) ∧
      (∀ q ∈ res.allQuotes, q ∈ st.allQuotes) ∧
      (st.allQuotes ≠ [] → res.allQuotes ≠ []) := by
  have hle := specFilter_length_le lowerRune st.allQuotes r
  have h200 : ∀ (fuel1 : Nat) (g1 : Rand) (res1 : Result),
      Handler lowerRune st r fuel1 g1 = .done res1 → res1.resp.status = 200 →
      res1.allQuotes = specFilter lowerRune st.allQuotes r ++
        st.allQuotes.drop (specFilter lowerRune st.allQuotes r).length := by
    intro fuel1 g1 res1 h1 hs
    have hg := Handler_200 lowerRune st r fuel1 g1 res1 h1 hs
    rw [(handleGET_done _ _ _ _ _ _ res1 hg).2.2.2.2, candidatesOf_array]
  have hstatus : ∀ (fuel1 : Nat) (g1 : Rand) (res1 : Result),
      Handler lowerRune st r fuel1 g1 = .done res1 →
      (res1.resp.status = 200 ↔ res.resp.status = 200) := by
    intro fuel1 g1 res1 h1
    unfold Handler at h h1
    simp only [] at h h1
    split at h
    · rw [if_pos (by assumption)] at h1
      injection h with h
      injection h1 with h1
      subst h h1
      exact Iff.rfl
    · rw [if_neg (by assumption)] at h1
      split at h
      · rw [if_pos (by assumption)] at h1
        rw [(handleGET_done _ _ _ _ _ _ res h).2.1, (handleGET_done _ _ _ _ _ _ res1 h1).2.1]
      · rw [if_neg (by assumption)] at h1
        injection h with h
        injection h1 with h1
        subst h h1
        exact Iff.rfl
  have hlen : res.allQuotes.length = st.allQuotes.length := by
    by_cases hs : res.resp.status = 200
    · rw [h200 fuel g res h hs, List.length_append, List.length_drop]
      omega
    · rw [(Handler_not_200 lowerRune st r fuel g res h hs).1]
  refine ⟨?_, ?_, hlen, ?_, ?_, ?_⟩
  · intro hs
    have heq := h200 fuel g res h hs
    refine ⟨heq, ?_, ?_, ?_⟩
    · rw [heq, List.take_left']
      rfl
    · rw [heq, List.drop_left']
      rfl
    · intro hnil
      rw [heq, hnil]
      simp
  · intro hs
    exact (Handler_not_200 lowerRune st r fuel g res h (by omega)).1
  · intro fuel1 g1 res1 h1
    by_cases hs : res.resp.status = 200
    · rw [h200 fuel g res h hs, h200 fuel1 g1 res1 h1 ((hstatus fuel1 g1 res1 h1).mpr hs)]
    · rw [(Handler_not_200 lowerRune st r fuel g res h hs).1,
        (Handler_not_200 lowerRune st r fuel1 g1 res1 h1
          (fun hc => hs ((hstatus fuel1 g1 res1 h1).mp hc))).1]
  · intro q hq
    by_cases hs : res.resp.status = 200
    · rw [h200 fuel g res h hs] at hq
      rcases List.mem_append.mp hq with hq | hq
      · unfold specFilter at hq
        exact (List.mem_filter.mp hq).1
      · exact List.mem_of_mem_drop hq
    · rw [(Handler_not_200 lowerRune st r fuel g res h hs).1] at hq
      exact hq
  · intro hne hnil
    rw [hnil] at hlen
    exact hne (List.length_eq_zero.mp hlen.symm)

/-- Witness of C14: on the three example quotes the request `?lang=fr` is answered 200
and leaves `c, b, c`, the one matching quote followed by the old elements from
position 1 on. -/
theorem C14_effect_on_dataset_witness :
    ∃ res, Handler asciiLower exampleServer ⟨"GET", [], [("lang", "fr")]⟩ 0 zeroRand =
        .done res ∧ res.resp.status = 200 ∧ res.allQuotes = [qc, qb, qc] ∧
      res.allQuotes.length = exampleServer.allQuotes.length := by
  obtain ⟨res, hres⟩ := handleGET_returns asciiLower exampleServer
    (baseHeaders exampleServer.etag) ⟨"GET", [], [("lang", "fr")]⟩ 0 zeroRand
    (Or.inl (by decide))
  have hH := (Handler_get asciiLower exampleServer ⟨"GET", [], [("lang", "fr")]⟩ 0 zeroRand rfl
    (by decide)).trans hres
  have h200 := (handleGET_done _ _ _ _ _ _ res hres).2.1
  have hC := C14_effect_on_dataset asciiLower exampleServer ⟨"GET", [], [("lang", "fr")]⟩ 0
    zeroRand res hH
  exact ⟨res, hH, h200, (hC.1 h200).1.trans (by decide), hC.2.2.1⟩

/-! ## Degenerate inputs of `sample` -/

theorem Shuffle_nil (g : Rand) : Shuffle ([] : List Quote) g = ([], g) := rfl

/-- Counterexample to C15 as stated: with `n = -1` and one quote in `src`, `sample` does
not return the empty list: `make([]Quote, 0, n)` panics; so it does on the empty
list. -/
theorem C15_counterexample :
    ((-1 : Int) ≤ 0 ∧ 0 < ([qa] : List Quote).length) ∧
      sample [qa] (-1) 0 zeroRand = .panic "makeslice: cap out of range" ∧
      sample [] (-1) 0 zeroRand = .panic "makeslice: cap out of range" ∧
      ¬ ∀ (src : List Quote) (n : Int) (fuel : Nat) (g : Rand), n ≤ 0 → 0 < src.length →
        sample src n fuel g = .done ([], g) := by
  refine ⟨by decide, rfl, rfl, ?_⟩
  intro hall
  have h := hall [qa] (-1) 0 zeroRand (by decide) (by decide)
  have h1 : sample [qa] (-1) 0 zeroRand = .panic "makeslice: cap out of range" := rfl
  rw [h1] at h
  cases h

/-- C15 as amended (no panic on degenerate inputs).  For every list `src`, the
empty one included, and every integer `n`: `sample` never hands `rand.Intn` an
empty range and never reads `src` out of bounds, the only panic it can raise
being that of `make([]Quote, 0, n)`, raised exactly when `n < 0`, a value
`handleGET` never passes; the loop is entered only on a non-empty list; for
`n >= 0` the empty list gives the empty list without a draw, and so does
`n = 0` on a non-empty list; and on an empty dataset every GET without a
matching `If-None-Match` is answered 200 with `count = 0` and no quotes. -/
theorem C15_no_panic_on_degenerate_inputs (src : List Quote) (n : Int) (fuel : Nat)
    (g : Rand) :
    (∀ msg, sample src n fuel g = .panic msg → n < 0 ∧ msg = "makeslice: cap out of range") ∧
      (n < 0 → sample src n fuel g = .panic "makeslice: cap out of range") ∧
      (∀ r : Request, 1 ≤ limitOf r) ∧
      (0 ≤ n → n < (src.length : Int) →
        0 < src.length ∧ sample src n fuel g = sampleLoop src n.toNat fuel [] [] g ∧
        ∀ (fuel1 : Nat) (seen : List Nat) (out : List Quote) (g1 : Rand) (msg : String),
          sampleLoop src n.toNat fuel1 seen out g1 ≠ .panic msg) ∧
      (0 ≤ n → src = [] → sample src n fuel g = .done ([], g)) ∧
      (n = 0 → 0 < src.length → sample src n fuel g = .done ([], g)) ∧
      (∀ (lowerRune : Char → Char) (etag : String) (r : Request), r.Method = "GET" →
        ¬ (Get r.Header "If-None-Match" ≠ "" ∧ Get r.Header "If-None-Match" = etag) →
        Handler lowerRune ⟨[], etag⟩ r fuel g =
          .done ⟨⟨200, baseHeaders etag,
            .json [("count", .int 0), ("result", .quotes [])] (Get r.Query "pretty" == "1")⟩,
            [], g⟩) := by
  have hneg : n < 0 → sample src n fuel g = .panic "makeslice: cap out of range" := by
    intro hn
    unfold sample
    rw [if_neg (by omega), if_pos hn]
  refine ⟨?_, hneg, fun r => (resolveLimit_range _).1, ?_, ?_, ?_, ?_⟩
  · intro msg hmsg
    by_cases hn : n < 0
    · rw [hneg hn] at hmsg
      injection hmsg with hmsg
      exact ⟨hn, hmsg.symm⟩
    · exact absurd hmsg (sample_no_panic src n fuel g msg (by omega))
  · intro h0 hn
    have hsrc : 0 < src.length := by omega
    exact ⟨hsrc, sample_reject src n fuel g h0 hn,
      fun fuel1 seen out g1 msg => sampleLoop_no_panic src n.toNat hsrc fuel1 seen out g1 msg⟩
  · intro h0 hsrc
    subst hsrc
    rw [sample_full [] n fuel g (by simpa using h0), Shuffle_nil]
  · intro hn hsrc
    subst hn
    rw [sample_reject src 0 fuel g (le_refl 0) (by omega)]
    cases fuel with
    | zero => rfl
    | succ f => rfl
  · intro lowerRune etag r hget hinm
    rw [Handler_get lowerRune ⟨[], etag⟩ r fuel g hget hinm, handleGET_eq]
    have hc : candidatesOf lowerRune ([] : List Quote) r = ([], []) := rfl
    have hlim := resolveLimit_range (Get r.Query "limit")
    simp only []
    rw [hc, sample_full [] (limitOf r) fuel g (by unfold limitOf; simp; omega), Shuffle_nil]
    rfl

/-- Witness of C15 as amended: `n = 0` on the three example quotes returns the empty
list, and a GET on an empty dataset is answered 200 with `count = 0`. -/
theorem C15_no_panic_on_degenerate_inputs_witness :
    sample [qa, qb, qc] 0 0 zeroRand = .done ([], zeroRand) ∧
      (Handler asciiLower ⟨[], exampleServer.etag⟩ ⟨"GET", [], [("limit", "3")]⟩ 0
        zeroRand).outcome =
        some (⟨200, baseHeaders exampleServer.etag,
          .json [("count", .int 0), ("result", .quotes [])] false⟩, []) :=
  ⟨(C15_no_panic_on_degenerate_inputs [qa, qb, qc] 0 0 zeroRand).2.2.2.2.2.1 rfl (by decide),
    (congrArg Run.outcome
      ((C15_no_panic_on_degenerate_inputs [] 0 0 zeroRand).2.2.2.2.2.2 asciiLower
        exampleServer.etag ⟨"GET", [], [("limit", "3")]⟩ rfl (by decide))).trans rfl⟩

/-! ## Termination of the rejection loop -/

theorem draws_toFinset_step (g : Rand) (len k : Nat) (seen : List Nat) :
    (seen ++ draws g len (k + 1)).toFinset =
      ((seen ++ [g 0 % len]) ++ draws (g.drop 1) len k).toFinset := by
  rw [draws_succ]
  ext x
  simp only [List.mem_toFinset, List.mem_append, List.mem_cons, List.mem_singleton,
    List.not_mem_nil, or_false, or_assoc]

theorem draws_toFinset_step_seen (g : Rand) (len k : Nat) (seen : List Nat)
    (h : g 0 % len ∈ seen) :
    (seen ++ draws g len (k + 1)).toFinset = (seen ++ draws (g.drop 1) len k).toFinset := by
  rw [draws_succ]
  ext x
  simp only [List.mem_toFinset, List.mem_append, List.mem_cons]
  constructor
  · rintro (hx | hx | hx)
    · exact Or.inl hx
    · exact Or.inl (hx ▸ h)
    · exact Or.inr hx
  · rintro (hx | hx)
    · exact Or.inl hx
    · exact Or.inr (Or.inr hx)

theorem card_seen_le (seen ds : List Nat) (hnd : seen.Nodup) :
    seen.length ≤ (seen ++ ds).toFinset.card := by
  rw [← List.toFinset_card_of_nodup hnd]
  apply Finset.card_le_card
  intro x hx
  simp only [List.mem_toFinset, List.mem_append] at hx ⊢
  exact Or.inl hx

/-- The loop of `sample`, exactly: it is still running after `fuel` draws when the
keys seen and those draws hold fewer than `n` distinct indices; otherwise it has
returned, having consumed the draws up to the first point where `n` distinct
indices are held, and no more. -/
theorem sampleLoop_exact (src : List Quote) (n : Nat) (hsrc : 0 < src.length) :
    ∀ (fuel : Nat) (seen : List Nat) (out : List Quote) (g : Rand),
      seen.Nodup → out.length = seen.length → seen.length ≤ n →
      ((seen ++ draws g src.length fuel).toFinset.card < n →
        sampleLoop src n fuel seen out g = .outOfFuel) ∧
      (n ≤ (seen ++ draws g src.length fuel).toFinset.card →
        ∃ (m : Nat) (out1 : List Quote), m ≤ fuel ∧
          sampleLoop src n fuel seen out g = .done (out1, g.drop m) ∧
          (seen ++ draws g src.length m).toFinset.card = n ∧
          (∀ m1, m1 < m → (seen ++ draws g src.length m1).toFinset.card < n) ∧
          out1.length = n) := by
  intro fuel
  induction fuel with
  | zero =>
    intro seen out g hnd hlen hle
    rw [draws_zero, List.append_nil, List.toFinset_card_of_nodup hnd]
    constructor
    · intro hlt
      rw [sampleLoop, if_pos (by omega)]
    · intro hge
      refine ⟨0, out, le_refl 0, ?_, ?_, ?_, by omega⟩
      · rw [sampleLoop, if_neg (by omega)]
        rfl
      · rw [draws_zero, List.append_nil, List.toFinset_card_of_nodup hnd]
        omega
      · intro m1 hm1
        omega
  | succ f ih =>
    intro seen out g hnd hlen hle
    by_cases hlt : out.length < n
    · have hstep : sampleLoop src n (f + 1) seen out g =
          if g 0 % src.length ∈ seen then sampleLoop src n f seen out (g.drop 1)
          else sampleLoop src n f (seen ++ [g 0 % src.length])
            (out ++ [src.get ⟨g 0 % src.length, Nat.mod_lt _ hsrc⟩]) (g.drop 1) := by
        rw [sampleLoop, if_pos hlt, Intn_pos g _ hsrc]
        simp only []
        split
        · rfl
        · rw [List.getElem?_eq_getElem (Nat.mod_lt _ hsrc)]
          rfl
      rw [hstep]
      have hzero : (seen ++ draws g src.length 0).toFinset.card < n := by
        rw [draws_zero, List.append_nil, List.toFinset_card_of_nodup hnd]
        omega
      by_cases hin : g 0 % src.length ∈ seen
      · rw [if_pos hin]
        obtain ⟨ih1, ih2⟩ := ih seen out (g.drop 1) hnd hlen hle
        constructor
        · intro hc
          rw [draws_toFinset_step_seen g _ f seen hin] at hc
          exact ih1 hc
        · intro hc
          rw [draws_toFinset_step_seen g _ f seen hin] at hc
          obtain ⟨m, out1, hm, hdone, hcard, hmin, hout⟩ := ih2 hc
          refine ⟨m + 1, out1, by omega, ?_, ?_, ?_, hout⟩
          · rw [hdone, Rand.drop_drop]
          · rw [draws_toFinset_step_seen g _ m seen hin]
            exact hcard
          · intro m1 hm1
            cases m1 with
            | zero => exact hzero
            | succ k =>
              rw [draws_toFinset_step_seen g _ k seen hin]
              exact hmin k (by omega)
      · rw [if_neg hin]
        have hnd1 : (seen ++ [g 0 % src.length]).Nodup := by
          rw [List.nodup_append]
          refine ⟨hnd, List.nodup_singleton _, ?_⟩
          intro a ha hb
          rw [List.mem_singleton.mp hb] at ha
          exact hin ha
        obtain ⟨ih1, ih2⟩ := ih (seen ++ [g 0 % src.length])
          (out ++ [src.get ⟨g 0 % src.length, Nat.mod_lt _ hsrc⟩]) (g.drop 1) hnd1
          (by simp [hlen]) (by simp; omega)
        constructor
        · intro hc
          rw [draws_toFinset_step g _ f seen] at hc
          exact ih1 hc
        · intro hc
          rw [draws_toFinset_step g _ f seen] at hc
          obtain ⟨m, out1, hm, hdone, hcard, hmin, hout⟩ := ih2 hc
          refine ⟨m + 1, out1, by omega, ?_, ?_, ?_, hout⟩
          · rw [hdone, Rand.drop_drop]
          · rw [draws_toFinset_step g _ m seen]
            exact hcard
          · intro m1 hm1
            cases m1 with
            | zero => exact hzero
            | succ k =>
              rw [draws_toFinset_step g _ k seen]
              exact hmin k (by omega)
    · have hge := card_seen_le seen (draws g src.length (f + 1)) hnd
      constructor
      · intro hc
        omega
      · intro _
        refine ⟨0, out, Nat.zero_le _, ?_, ?_, ?_, by omega⟩
        · rw [sampleLoop, if_neg hlt]
          rfl
        · rw [draws_zero, List.append_nil, List.toFinset_card_of_nodup hnd]
          omega
        · intro m1 hm1
          omega

theorem draws_const (c len k : Nat) : (draws (fun _ => c) len k).toFinset ⊆ {c % len} := by
  intro x hx
  simp only [List.mem_toFinset, draws, List.mem_map] at hx
  obtain ⟨t, -, rfl⟩ := hx
  exact Finset.mem_singleton.mpr rfl

/-- C16 (termination of rejection sampling).  For every list `src`, every
`n < len(src)` and every random source, the loop of `sample` run on the stream
of in-range draws behaves as follows.  If the first `fuel` draws hold at least
`n` distinct values, the loop has returned `n` quotes within them, having
consumed exactly `m` draws, where `m` is the first point at which `n` distinct
values have been drawn.  If they hold fewer, the loop is still running.  A
draw of an index already seen leaves `seen` and `out` as they are, a new index
appends one quote to `out`.  For `n >= 0` this loop is the whole of `sample`.
On a constant source with `n >= 2` the loop is still running after any number
of draws: termination is not guaranteed for every random source. -/
theorem C16_rejection_sampling_termination (src : List Quote) (n : Int) (g : Rand)
    (hn : n < (src.length : Int)) :
    (∀ fuel : Nat, n.toNat ≤ (draws g src.length fuel).toFinset.card →
        ∃ (m : Nat) (out : List Quote), m ≤ fuel ∧
          sampleLoop src n.toNat fuel [] [] g = .done (out, g.drop m) ∧
          out.length = n.toNat ∧
          (draws g src.length m).toFinset.card = n.toNat ∧
          ∀ m1, m1 < m → (draws g src.length m1).toFinset.card < n.toNat) ∧
      (∀ fuel : Nat, (draws g src.length fuel).toFinset.card < n.toNat →
        sampleLoop src n.toNat fuel [] [] g = .outOfFuel) ∧
      (∀ (fuel : Nat) (seen : List Nat) (out : List Quote) (g1 : Rand),
        out.length < n.toNat → g1 0 % src.length ∈ seen →
        sampleLoop src n.toNat (fuel + 1) seen out g1 =
          sampleLoop src n.toNat fuel seen out (g1.drop 1)) ∧
      (∀ (fuel : Nat) (seen : List Nat) (out : List Quote) (g1 : Rand),
        out.length < n.toNat → g1 0 % src.length ∉ seen →
        ∃ q, src[g1 0 % src.length]? = some q ∧
          sampleLoop src n.toNat (fuel + 1) seen out g1 =
            sampleLoop src n.toNat fuel (seen ++ [g1 0 % src.length]) (out ++ [q])
              (g1.drop 1)) ∧
      (0 ≤ n → ∀ fuel : Nat, sample src n fuel g = sampleLoop src n.toNat fuel [] [] g) ∧
      (2 ≤ n → ∀ (c fuel : Nat), sample src n fuel (fun _ => c) = .outOfFuel) := by
  by_cases hsrc : 0 < src.length
  · have hex := fun (fuel : Nat) (g1 : Rand) =>
      sampleLoop_exact src n.toNat hsrc fuel [] [] g1 List.nodup_nil rfl (Nat.zero_le _)
    refine ⟨?_, ?_, ?_, ?_, ?_, ?_⟩
    · intro fuel hc
      obtain ⟨m, out, hm, hdone, hcard, hmin, hout⟩ := (hex fuel g).2 (by simpa using hc)
      exact ⟨m, out, hm, hdone, hout, by simpa using hcard,
        fun m1 hm1 => by simpa using hmin m1 hm1⟩
    · intro fuel hc
      exact (hex fuel g).1 (by simpa using hc)
    · intro fuel seen out g1 hlt hin
      rw [sampleLoop, if_pos hlt, Intn_pos g1 _ hsrc]
      simp only []
      rw [if_pos hin]
    · intro fuel seen out g1 hlt hnin
      refine ⟨src.get ⟨g1 0 % src.length, Nat.mod_lt _ hsrc⟩,
        List.getElem?_eq_getElem (Nat.mod_lt _ hsrc), ?_⟩
      rw [sampleLoop, if_pos hlt, Intn_pos g1 _ hsrc]
      simp only []
      rw [if_neg hnin, List.getElem?_eq_getElem (Nat.mod_lt _ hsrc)]
      rfl
    · intro h0 fuel
      exact sample_reject src n fuel g h0 hn
    · intro h2 c fuel
      rw [sample_reject src n fuel _ (by omega) hn]
      apply (hex fuel (fun _ => c)).1
      have h1 : (draws (fun _ => c) src.length fuel).toFinset.card ≤ 1 := by
        have := Finset.card_le_card (draws_const c src.length fuel)
        simpa using this
      have h3 : 2 ≤ n.toNat := by omega
      simp only [List.nil_append]
      omega
  · have hlen : src.length = 0 := by omega
    have hneg : n.toNat = 0 := by omega
    refine ⟨?_, ?_, ?_, ?_, ?_, ?_⟩
    · intro fuel _
      refine ⟨0, [], Nat.zero_le _, ?_, by simp [hneg], by simp [hneg, draws_zero], ?_⟩
      · rw [hneg]
        cases fuel with
        | zero => rfl
        | succ f => rfl
      · intro m1 hm1
        omega
    · intro fuel hc
      omega
    · intro fuel seen out g1 hlt
      omega
    · intro fuel seen out g1 hlt
      omega
    · intro h0
      omega
    · intro h2
      omega

/-- Witness of C16: two of the three example quotes.  On the draws 0, 0, 1 the loop
returns after exactly three draws; on the constant draw 0 it is still running
after a thousand. -/
theorem C16_rejection_sampling_termination_witness :
    (2 : Int) < (([qa, qb, qc] : List Quote).length : Int) ∧
      (∃ (m : Nat) (out : List Quote), m ≤ 3 ∧
        sampleLoop [qa, qb, qc] 2 3 [] [] stutterRand = .done (out, stutterRand.drop m) ∧
        out.length = 2 ∧
        (draws stutterRand 3 m).toFinset.card = 2 ∧
        ∀ m1, m1 < m → (draws stutterRand 3 m1).toFinset.card < 2) ∧
      sampleLoop [qa, qb, qc] 2 2 [] [] stutterRand = .outOfFuel ∧
      sample [qa, qb, qc] 2 1000 (fun _ => 0) = .outOfFuel :=
  ⟨by decide,
    (C16_rejection_sampling_termination [qa, qb, qc] 2 stutterRand (by decide)).1 3 (by decide),
    (C16_rejection_sampling_termination [qa, qb, qc] 2 stutterRand (by decide)).2.1 2
      (by decide),
    (C16_rejection_sampling_termination [qa, qb, qc] 2 stutterRand (by decide)).2.2.2.2.2
      (by decide) 0 1000⟩

/-! ## The positions selected by the rejection loop -/

/-- The loop of `sample` and its keys: when the keys are returned, the loop returns
the quotes at these keys; when they are not, the loop is still running. -/
theorem sampleLoop_keys (src : List Quote) (n : Nat) (hsrc : 0 < src.length) :
    ∀ (fuel : Nat) (seen : List Nat) (out : List Quote) (g : Rand),
      out.map some = seen.map (fun i => src[i]?) →
      (∀ keys, sampleKeys src.length n fuel seen g = some keys →
        ∃ (out1 : List Quote) (g1 : Rand), sampleLoop src n fuel seen out g = .done (out1, g1) ∧
          out1.map some = keys.map (fun i => src[i]?)) ∧
      (sampleKeys src.length n fuel seen g = none →
        sampleLoop src n fuel seen out g = .outOfFuel) := by
  intro fuel
  induction fuel with
  | zero =>
    intro seen out g hmap
    have hlen : out.length = seen.length := by
      have := congrArg List.length hmap
      simpa using this
    rw [sampleKeys, sampleLoop, hlen]
    by_cases h : seen.length < n
    · rw [if_pos h, if_pos h]
      exact ⟨fun keys hk => (by cases hk), fun _ => rfl⟩
    · rw [if_neg h, if_neg h]
      refine ⟨fun keys hk => ?_, fun hk => (by cases hk)⟩
      injection hk with hk
      subst hk
      exact ⟨out, g, rfl, hmap⟩
  | succ f ih =>
    intro seen out g hmap
    have hlen : out.length = seen.length := by
      have := congrArg List.length hmap
      simpa using this
    rw [sampleKeys, sampleLoop, hlen]
    by_cases h : seen.length < n
    · rw [if_pos h, if_pos h, Intn_pos g _ hsrc]
      simp only []
      by_cases hin : g 0 % src.length ∈ seen
      · rw [if_pos hin, if_pos hin]
        exact ih seen out (g.drop 1) hmap
      · rw [if_neg hin, if_neg hin, List.getElem?_eq_getElem (Nat.mod_lt _ hsrc)]
        exact ih _ _ (g.drop 1) (by simp [hmap, List.getElem?_eq_getElem (Nat.mod_lt _ hsrc)])
    · rw [if_neg h, if_neg h]
      refine ⟨fun keys hk => ?_, fun hk => (by cases hk)⟩
      injection hk with hk
      subst hk
      exact ⟨out, g, rfl, hmap⟩

/-- The keys returned are `n` pairwise distinct positions of the list. -/
theorem sampleKeys_inv (len n : Nat) (hlen : 0 < len) :
    ∀ (fuel : Nat) (seen : List Nat) (g : Rand) (keys : List Nat),
      sampleKeys len n fuel seen g = some keys →
      seen.Nodup → (∀ i ∈ seen, i < len) → seen.length ≤ n →
      keys.Nodup ∧ (∀ i ∈ keys, i < len) ∧ keys.length = n := by
  intro fuel
  induction fuel with
  | zero =>
    intro seen g keys h hnd hlt hle
    rw [sampleKeys] at h
    split at h
    · cases h
    · injection h with h
      subst h
      exact ⟨hnd, hlt, by omega⟩
  | succ f ih =>
    intro seen g keys h hnd hlt hle
    rw [sampleKeys] at h
    split at h
    · split at h
      · exact ih seen _ keys h hnd hlt hle
      · next hlt1 hnin =>
        refine ih _ _ keys h ?_ ?_ (by simp; omega)
        · rw [List.nodup_append]
          refine ⟨hnd, List.nodup_singleton _, ?_⟩
          intro a ha hb
          rw [List.mem_singleton.mp hb] at ha
          exact hnin ha
        · intro i hi
          rcases List.mem_append.mp hi with hi | hi
          · exact hlt i hi
          · rw [List.mem_singleton.mp hi]
            exact Nat.mod_lt _ hlen
    · injection h with h
      subst h
      exact ⟨hnd, hlt, by omega⟩

/-- The keys depend on the first `fuel` draws only. -/
theorem sampleKeys_congr (len n : Nat) :
    ∀ (fuel : Nat) (seen : List Nat) (g g1 : Rand), (∀ t, t < fuel → g t = g1 t) →
      sampleKeys len n fuel seen g = sampleKeys len n fuel seen g1 := by
  intro fuel
  induction fuel with
  | zero =>
    intro seen g g1 _
    rw [sampleKeys, sampleKeys]
  | succ f ih =>
    intro seen g g1 h
    have h0 : g 0 = g1 0 := h 0 (Nat.succ_pos _)
    have hd : ∀ t, t < f → g.drop 1 t = g1.drop 1 t := fun t ht => h (t + 1) (by omega)
    rw [sampleKeys, sampleKeys, h0, ih seen _ _ hd, ih (seen ++ [g1 0 % len]) _ _ hd]

/-- Relabelling the positions by an injective map of `[0, len)` into itself
relabels the keys. -/
theorem sampleKeys_relabel (len n : Nat) (σ : Nat → Nat) (hinj : Function.Injective σ)
    (hrange : ∀ x, x < len → σ x < len) (hlen : 0 < len) :
    ∀ (fuel : Nat) (seen : List Nat) (g : Rand),
      sampleKeys len n fuel (seen.map σ) (fun t => σ (g t % len)) =
        (sampleKeys len n fuel seen g).map (List.map σ) := by
  intro fuel
  induction fuel with
  | zero =>
    intro seen g
    rw [sampleKeys, sampleKeys, List.length_map]
    split <;> rfl
  | succ f ih =>
    intro seen g
    rw [sampleKeys, sampleKeys, List.length_map]
    have hmod : σ (g 0 % len) % len = σ (g 0 % len) :=
      Nat.mod_eq_of_lt (hrange _ (Nat.mod_lt _ hlen))
    have hdrop : Rand.drop (fun t => σ (g t % len)) 1 = fun t => σ ((g.drop 1) t % len) := rfl
    by_cases h : seen.length < n
    · rw [if_pos h, if_pos h]
      rw [hmod, hdrop]
      by_cases hin : g 0 % len ∈ seen
      · rw [if_pos ((List.mem_map_of_injective hinj).mpr hin), if_pos hin]
        exact ih seen (g.drop 1)
      · rw [if_neg (fun hc => hin ((List.mem_map_of_injective hinj).mp hc)), if_neg hin]
        have := ih (seen ++ [g 0 % len]) (g.drop 1)
        rw [List.map_append] at this
        exact this
    · rw [if_neg h, if_neg h]
      rfl

/-- The keys are returned within `fuel` draws when the keys seen and those draws
hold `n` distinct positions. -/
theorem sampleKeys_isSome (len n : Nat) :
    ∀ (fuel : Nat) (seen : List Nat) (g : Rand), seen.Nodup →
      n ≤ (seen ++ draws g len fuel).toFinset.card →
      (sampleKeys len n fuel seen g).isSome = true := by
  intro fuel
  induction fuel with
  | zero =>
    intro seen g hnd hc
    rw [draws_zero, List.append_nil, List.toFinset_card_of_nodup hnd] at hc
    rw [sampleKeys, if_neg (by omega)]
    rfl
  | succ f ih =>
    intro seen g hnd hc
    rw [sampleKeys]
    by_cases h : seen.length < n
    · rw [if_pos h]
      by_cases hin : g 0 % len ∈ seen
      · rw [if_pos hin]
        rw [draws_toFinset_step_seen g len f seen hin] at hc
        exact ih seen _ hnd hc
      · rw [if_neg hin]
        rw [draws_toFinset_step g len f seen] at hc
        refine ih _ _ ?_ hc
        rw [List.nodup_append]
        refine ⟨hnd, List.nodup_singleton _, ?_⟩
        intro a ha hb
        rw [List.mem_singleton.mp hb] at ha
        exact hin ha
    · rw [if_neg h]
      rfl

/-! ## Counting draw sequences -/

theorem liftPerm_val {len : Nat} (σ : Equiv.Perm (Fin len)) (i : Fin len) :
    liftPerm σ i.val = (σ i).val := by
  unfold liftPerm
  rw [dif_pos i.isLt]

theorem liftPerm_lt {len : Nat} (σ : Equiv.Perm (Fin len)) (x : Nat) (h : x < len) :
    liftPerm σ x < len := by
  unfold liftPerm
  rw [dif_pos h]
  exact (σ ⟨x, h⟩).isLt

theorem liftPerm_injective {len : Nat} (σ : Equiv.Perm (Fin len)) :
    Function.Injective (liftPerm σ) := by
  intro x y hxy
  unfold liftPerm at hxy
  by_cases hx : x < len <;> by_cases hy : y < len
  · rw [dif_pos hx, dif_pos hy] at hxy
    have := σ.injective (Fin.ext hxy)
    exact congrArg Fin.val this
  · rw [dif_pos hx, dif_neg hy] at hxy
    have := (σ ⟨x, hx⟩).isLt
    omega
  · rw [dif_neg hx, dif_pos hy] at hxy
    have := (σ ⟨y, hy⟩).isLt
    omega
  · rw [dif_neg hx, dif_neg hy] at hxy
    exact hxy

theorem streamOfFn_lt {F len : Nat} (ds : Fin F → Fin len) (t : Nat) (h : t < F) :
    streamOfFn ds t = (ds ⟨t, h⟩).val := by
  unfold streamOfFn
  rw [dif_pos h]

/-- Relabelling every draw by a permutation of the positions relabels the keys. -/
theorem sampleKeys_comp (len n F : Nat) (σ : Equiv.Perm (Fin len)) (ds : Fin F → Fin len) :
    sampleKeys len n F [] (streamOfFn (fun t => σ (ds t))) =
      (sampleKeys len n F [] (streamOfFn ds)).map (List.map (liftPerm σ)) := by
  by_cases hlen : 0 < len
  · have h1 := sampleKeys_relabel len n (liftPerm σ) (liftPerm_injective σ) (liftPerm_lt σ) hlen
      F [] (streamOfFn ds)
    rw [List.map_nil] at h1
    rw [← h1]
    apply sampleKeys_congr
    intro t ht
    rw [streamOfFn_lt _ t ht, streamOfFn_lt _ t ht, Nat.mod_eq_of_lt (ds ⟨t, ht⟩).isLt,
      liftPerm_val]
  · cases F with
    | zero =>
      rw [sampleKeys, sampleKeys]
      split <;> rfl
    | succ f => exact absurd (ds ⟨0, Nat.succ_pos _⟩).isLt (by omega)

theorem hits_comp (len n F : Nat) (σ : Equiv.Perm (Fin len)) (ds : Fin F → Fin len) (i : Nat) :
    hits len n F (fun t => σ (ds t)) (liftPerm σ i) = hits len n F ds i := by
  unfold hits
  rw [sampleKeys_comp]
  cases sampleKeys len n F [] (streamOfFn ds) with
  | none => rfl
  | some keys =>
    simp only [Option.map_some']
    rw [decide_eq_decide]
    exact List.mem_map_of_injective (liftPerm_injective σ)

/-- Symmetry: every position is selected on the same number of draw sequences. -/
theorem hitCount_symm (len n F i j : Nat) (hi : i < len) (hj : j < len) :
    hitCount len n F i = hitCount len n F j := by
  unfold hitCount
  have hσ : liftPerm (Equiv.swap (⟨i, hi⟩ : Fin len) ⟨j, hj⟩) i = j := by
    have := liftPerm_val (Equiv.swap (⟨i, hi⟩ : Fin len) ⟨j, hj⟩) ⟨i, hi⟩
    rw [Equiv.swap_apply_left] at this
    exact this
  apply Finset.card_bij (fun ds _ => fun t => Equiv.swap (⟨i, hi⟩ : Fin len) ⟨j, hj⟩ (ds t))
  · intro ds hds
    rw [Finset.mem_filter] at hds ⊢
    refine ⟨Finset.mem_univ _, ?_⟩
    have h1 := hits_comp len n F (Equiv.swap (⟨i, hi⟩ : Fin len) ⟨j, hj⟩) ds i
    rw [hσ] at h1
    rw [h1]
    exact hds.2
  · intro ds1 _ ds2 _ heq
    funext t
    exact (Equiv.swap (⟨i, hi⟩ : Fin len) ⟨j, hj⟩).injective (congrFun heq t)
  · intro ds hds
    rw [Finset.mem_filter] at hds
    refine ⟨fun t => Equiv.swap (⟨i, hi⟩ : Fin len) ⟨j, hj⟩ (ds t), ?_, ?_⟩
    · rw [Finset.mem_filter]
      refine ⟨Finset.mem_univ _, ?_⟩
      have h1 := hits_comp len n F (Equiv.swap (⟨i, hi⟩ : Fin len) ⟨j, hj⟩)
        (fun t => Equiv.swap (⟨i, hi⟩ : Fin len) ⟨j, hj⟩ (ds t)) i
      simp only [Equiv.swap_apply_self] at h1
      rw [hσ] at h1
      rw [← h1]
      exact hds.2
    · funext t
      simp only [Equiv.swap_apply_self]

theorem card_filter_mem_keys (len : Nat) (keys : List Nat) (hnd : keys.Nodup)
    (hlt : ∀ i ∈ keys, i < len) :
    ((Finset.range len).filter (fun i => i ∈ keys)).card = keys.length := by
  rw [← List.toFinset_card_of_nodup hnd]
  congr 1
  ext x
  simp only [Finset.mem_filter, Finset.mem_range, List.mem_toFinset]
  exact ⟨fun h => h.2, fun h => ⟨hlt x h, h⟩⟩

/-- Double counting: each sequence on which the loop returns selects exactly `n`
positions. -/
theorem sum_hitCount (len n F : Nat) (hlen : 0 < len) :
    ∑ i in Finset.range len, hitCount len n F i = n * doneCount len n F := by
  unfold hitCount doneCount
  simp only [Finset.card_filter]
  rw [Finset.sum_comm, Finset.mul_sum]
  apply Finset.sum_congr rfl
  intro ds _
  cases hk : sampleKeys len n F [] (streamOfFn ds) with
  | none =>
    simp [hits, hk]
  | some keys =>
    obtain ⟨hnd, hlt, hl⟩ := sampleKeys_inv len n hlen F [] (streamOfFn ds) keys hk
      List.nodup_nil (by simp) (Nat.zero_le _)
    have : ∀ i, hits len n F ds i = decide (i ∈ keys) := by
      intro i
      simp [hits, hk]
    simp only [this, decide_eq_true_eq, Option.isSome_some, if_true, mul_one]
    rw [← Finset.card_filter, card_filter_mem_keys len keys hnd hlt, hl]

/-- Among the sequences of `F` draws on which the loop returns, the fraction on
which position `i` is selected is `n / len`. -/
theorem hitCount_exact (len n F i : Nat) (hi : i < len) :
    len * hitCount len n F i = n * doneCount len n F := by
  rw [← sum_hitCount len n F (by omega)]
  rw [Finset.sum_congr rfl (fun j hj => hitCount_symm len n F j i (Finset.mem_range.mp hj) hi)]
  rw [Finset.sum_const, Finset.card_range, smul_eq_mul]

theorem draws_streamOfFn_mem {F len : Nat} (ds : Fin F → Fin len) (t : Fin F) :
    (ds t).val ∈ (draws (streamOfFn ds) len F).toFinset := by
  rw [List.mem_toFinset]
  unfold draws
  rw [List.mem_map]
  refine ⟨t.val, List.mem_range.mpr t.isLt, ?_⟩
  rw [streamOfFn_lt ds t.val t.isLt, Nat.mod_eq_of_lt (ds ⟨t.val, t.isLt⟩).isLt]

theorem doneCount_le (len n F : Nat) : doneCount len n F ≤ len ^ F := by
  unfold doneCount
  calc (Finset.univ.filter (fun ds : Fin F → Fin len =>
          (sampleKeys len n F [] (streamOfFn ds)).isSome = true)).card
      ≤ (Finset.univ : Finset (Fin F → Fin len)).card := Finset.card_filter_le _ _
    _ = len ^ F := by simp

/-- A sequence on which the loop has not returned misses some position, so there
are at most `len * (len - 1) ^ F` of them. -/
theorem doneCount_ge (len n F : Nat) (hn : n < len) :
    len ^ F ≤ doneCount len n F + len * (len - 1) ^ F := by
  have huniv : (Finset.univ : Finset (Fin F → Fin len)).card = len ^ F := by simp
  have hsplit := Finset.filter_card_add_filter_neg_card_eq_card
    (s := (Finset.univ : Finset (Fin F → Fin len)))
    (fun ds : Fin F → Fin len => (sampleKeys len n F [] (streamOfFn ds)).isSome = true)
  have hsub : (Finset.univ.filter (fun ds : Fin F → Fin len =>
      ¬ (sampleKeys len n F [] (streamOfFn ds)).isSome = true)) ⊆
      Finset.univ.biUnion (fun v : Fin len =>
        Fintype.piFinset (fun _ : Fin F => (Finset.univ : Finset (Fin len)).erase v)) := by
    intro ds hds
    rw [Finset.mem_filter] at hds
    have hcard : (draws (streamOfFn ds) len F).toFinset.card < n := by
      by_contra hc
      exact hds.2 (sampleKeys_isSome len n F [] (streamOfFn ds) List.nodup_nil
        (by simpa using hc))
    have hlt : (draws (streamOfFn ds) len F).toFinset.card < (Finset.range len).card := by
      rw [Finset.card_range]
      omega
    have hex : ∃ v, v ∈ Finset.range len ∧ v ∉ (draws (streamOfFn ds) len F).toFinset := by
      by_contra hall
      have hss : Finset.range len ⊆ (draws (streamOfFn ds) len F).toFinset := by
        intro v hv
        by_contra hnv
        exact hall ⟨v, hv, hnv⟩
      have := Finset.card_le_card hss
      omega
    obtain ⟨v, hv, hnv⟩ := hex
    rw [Finset.mem_biUnion]
    refine ⟨⟨v, Finset.mem_range.mp hv⟩, Finset.mem_univ _, ?_⟩
    rw [Fintype.mem_piFinset]
    intro t
    rw [Finset.mem_erase]
    refine ⟨?_, Finset.mem_univ _⟩
    intro heq
    apply hnv
    have := draws_streamOfFn_mem ds t
    rw [heq] at this
    exact this
  have hbound : (Finset.univ.biUnion (fun v : Fin len =>
      Fintype.piFinset (fun _ : Fin F => (Finset.univ : Finset (Fin len)).erase v))).card ≤
      len * (len - 1) ^ F := by
    refine le_trans Finset.card_biUnion_le ?_
    have : ∀ v : Fin len, (Fintype.piFinset
        (fun _ : Fin F => (Finset.univ : Finset (Fin len)).erase v)).card = (len - 1) ^ F := by
      intro v
      rw [Fintype.card_piFinset]
      simp [Finset.card_erase_of_mem]
    rw [Finset.sum_congr rfl (fun v _ => this v)]
    simp
  have h1 := Finset.card_le_card hsub
  unfold doneCount
  omega

/-- With independent uniform draws the loop returns with probability one: the
fraction of the sequences of `F` draws on which it has returned tends to 1. -/
theorem doneCount_tendsto (len n : Nat) (hn : n < len) :
    Filter.Tendsto (fun F : Nat => (doneCount len n F : ℝ) / (len : ℝ) ^ F) Filter.atTop
      (nhds 1) := by
  have hlen : (0 : ℝ) < (len : ℝ) := by exact_mod_cast (by omega : 0 < len)
  have hr0 : (0 : ℝ) ≤ ((len : ℝ) - 1) / (len : ℝ) := by
    apply div_nonneg _ hlen.le
    have : (1 : ℝ) ≤ (len : ℝ) := by exact_mod_cast (by omega : 1 ≤ len)
    linarith
  have hr1 : ((len : ℝ) - 1) / (len : ℝ) < 1 := by
    rw [div_lt_one hlen]
    linarith
  have hpow := tendsto_pow_atTop_nhds_zero_of_lt_one hr0 hr1
  have hlow : Filter.Tendsto (fun F : Nat => 1 - (len : ℝ) * (((len : ℝ) - 1) / (len : ℝ)) ^ F)
      Filter.atTop (nhds 1) := by
    have := (hpow.const_mul (len : ℝ)).const_sub 1
    simpa using this
  refine tendsto_of_tendsto_of_tendsto_of_le_of_le hlow tendsto_const_nhds ?_ ?_
  · intro F
    have hpos : (0 : ℝ) < (len : ℝ) ^ F := pow_pos hlen F
    have hnat := doneCount_ge len n F hn
    have hreal : ((len : ℝ)) ^ F ≤ (doneCount len n F : ℝ) + (len : ℝ) * ((len : ℝ) - 1) ^ F := by
      have h1 : ((len ^ F : Nat) : ℝ) ≤ ((doneCount len n F + len * (len - 1) ^ F : Nat) : ℝ) := by
        exact_mod_cast hnat
      have h2 : ((len - 1 : Nat) : ℝ) = (len : ℝ) - 1 := by
        rw [Nat.cast_sub (by omega)]
        simp
      push_cast at h1
      rw [h2] at h1
      exact h1
    show 1 - (len : ℝ) * (((len : ℝ) - 1) / (len : ℝ)) ^ F ≤
      (doneCount len n F : ℝ) / (len : ℝ) ^ F
    rw [div_pow, le_div_iff₀ hpos]
    have h3 : (1 - (len : ℝ) * (((len : ℝ) - 1) ^ F / (len : ℝ) ^ F)) * (len : ℝ) ^ F =
        (len : ℝ) ^ F - (len : ℝ) * ((len : ℝ) - 1) ^ F := by
      field_simp
    rw [h3]
    linarith
  · intro F
    have hpos : (0 : ℝ) < (len : ℝ) ^ F := pow_pos hlen F
    show (doneCount len n F : ℝ) / (len : ℝ) ^ F ≤ 1
    rw [div_le_one hpos]
    exact_mod_cast doneCount_le len n F

/-- With independent uniform draws, the probability that position `i` is selected
within `F` draws tends to `n / len`. -/
theorem hitCount_tendsto (len n i : Nat) (hn : n < len) (hi : i < len) :
    Filter.Tendsto (fun F : Nat => (hitCount len n F i : ℝ) / (len : ℝ) ^ F) Filter.atTop
      (nhds ((n : ℝ) / (len : ℝ))) := by
  have hlen : (0 : ℝ) < (len : ℝ) := by exact_mod_cast (by omega : 0 < len)
  have h := (doneCount_tendsto len n hn).const_mul ((n : ℝ) / (len : ℝ))
  rw [mul_one] at h
  refine h.congr ?_
  intro F
  have hex : (len : ℝ) * (hitCount len n F i : ℝ) = (n : ℝ) * (doneCount len n F : ℝ) := by
    exact_mod_cast hitCount_exact len n F i hi
  have hhit : (hitCount len n F i : ℝ) = (n : ℝ) * (doneCount len n F : ℝ) / (len : ℝ) := by
    rw [eq_div_iff hlen.ne']
    linarith
  show (n : ℝ) / (len : ℝ) * ((doneCount len n F : ℝ) / (len : ℝ) ^ F) =
    (hitCount len n F i : ℝ) / (len : ℝ) ^ F
  rw [hhit]
  ring

/-! ## The shuffle is a bijection from draws to orderings -/

theorem streamOf_cons_zero (j : Nat) (rest : List Nat) : streamOf (j :: rest) 0 = j := rfl

theorem streamOf_cons_drop (j : Nat) (rest : List Nat) :
    (streamOf (j :: rest)).drop 1 = streamOf rest := rfl

theorem swap_append_right {α : Type} (l : List α) (x : α) (a b : Nat) (ha : a < l.length)
    (hb : b < l.length) : swap (l ++ [x]) a b = swap l a b ++ [x] := by
  unfold swap
  rw [List.getElem?_append_left ha, List.getElem?_append_left hb,
    List.getElem?_eq_getElem ha, List.getElem?_eq_getElem hb]
  simp only []
  rw [List.set_append_left _ _ ha, List.set_append_left _ _ (by simpa using hb)]

theorem shuffleLoop_append {α : Type} : ∀ (i : Nat) (l : List α) (x : α) (g : Rand),
    i < l.length →
    shuffleLoop i (l ++ [x]) g = ((shuffleLoop i l g).1 ++ [x], (shuffleLoop i l g).2)
  | 0, l, x, g, _ => by
    rw [shuffleLoop, shuffleLoop]
  | i + 1, l, x, g, h => by
    have hj : g 0 % (i + 2) < l.length := by
      have := Nat.mod_lt (g 0) (by omega : 0 < i + 2)
      omega
    rw [shuffleLoop, shuffleLoop, swap_append_right l x (i + 1) _ h hj]
    exact shuffleLoop_append i _ x _ (by rw [swap_length]; omega)

theorem swap_getElem_left {α : Type} (cp : List α) (a j : Nat) (ha : a < cp.length)
    (hj : j < cp.length) : (swap cp a j)[a]? = cp[j]? := by
  unfold swap
  rw [List.getElem?_eq_getElem ha, List.getElem?_eq_getElem hj]
  simp only []
  rw [List.getElem?_set]
  by_cases h : j = a
  · subst h
    rw [if_pos rfl, if_pos (by simpa using hj)]
  · rw [if_neg h, List.getElem?_set, if_pos rfl, if_pos ha]

/-- After the first exchange of the shuffle the last element is final: the slice is
its first part followed by the element drawn. -/
theorem swap_last {α : Type} (cp : List α) (i j : Nat) (hlen : cp.length = i + 2)
    (hj : j < i + 2) (x : α) (hx : cp[j]? = some x) :
    swap cp (i + 1) j = (swap cp (i + 1) j).take (i + 1) ++ [x] := by
  have hL : (swap cp (i + 1) j).length = i + 2 := by rw [swap_length, hlen]
  have hget : (swap cp (i + 1) j)[i + 1]? = some x := by
    rw [swap_getElem_left cp (i + 1) j (by omega) (by omega), hx]
  have hdrop : (swap cp (i + 1) j).drop (i + 1) = [x] := by
    apply List.ext_getElem?
    intro t
    rw [List.getElem?_drop]
    cases t with
    | zero => simpa using hget
    | succ t =>
      rw [List.getElem?_eq_none (by omega)]
      rfl
  conv_lhs => rw [← List.take_append_drop (i + 1) (swap cp (i + 1) j)]
  rw [hdrop]

theorem validJs_zero (js : List Nat) (h : validJs 0 js = true) : js = [] := by
  cases js with
  | nil => rfl
  | cons j rest => cases h

theorem validJs_succ (i : Nat) (js : List Nat) (h : validJs (i + 1) js = true) :
    ∃ j rest, js = j :: rest ∧ j ≤ i + 1 ∧ validJs i rest = true := by
  cases js with
  | nil => cases h
  | cons j rest =>
    rw [validJs, Bool.and_eq_true, decide_eq_true_eq] at h
    exact ⟨j, rest, rfl, h.1, h.2⟩

/-- The shuffle loop is a bijection: every ordering of a slice of pairwise distinct
elements is produced by exactly one sequence of in-range draws. -/
theorem shuffleLoop_bijective {α : Type} : ∀ (i : Nat) (cp target : List α),
    cp.length = i + 1 → cp.Nodup → target.Perm cp →
    ∃! js, validJs i js = true ∧ (shuffleLoop i cp (streamOf js)).1 = target := by
  intro i
  induction i with
  | zero =>
    intro cp target hlen _ hperm
    refine ⟨[], ⟨rfl, ?_⟩, fun js h => validJs_zero js h.1⟩
    rw [shuffleLoop]
    match cp, hlen with
    | [a], _ => exact (List.perm_singleton.mp hperm).symm
  | succ i ih =>
    intro cp target hlen hnd hperm
    have htl : target.length = i + 2 := by rw [hperm.length_eq, hlen]
    have htne : target ≠ [] := by
      intro h
      rw [h] at htl
      cases htl
    obtain ⟨t1, x, htx⟩ : ∃ t1 x, target = t1 ++ [x] :=
      ⟨target.dropLast, target.getLast htne, (List.dropLast_append_getLast htne).symm⟩
    have hxcp : x ∈ cp := hperm.subset (by rw [htx]; simp)
    obtain ⟨j, hjlt, hjx⟩ := List.getElem_of_mem hxcp
    have hjx1 : cp[j]? = some x := by rw [List.getElem?_eq_getElem hjlt, hjx]
    have hj : j < i + 2 := by omega
    have hL := swap_last cp i j hlen hj x hjx1
    have hmod : j % (i + 2) = j := Nat.mod_eq_of_lt hj
    have hLperm : ((swap cp (i + 1) j).take (i + 1) ++ [x]).Perm cp := by
      rw [← hL]
      exact swap_perm cp _ _
    have hl1nd : ((swap cp (i + 1) j).take (i + 1)).Nodup := by
      have : ((swap cp (i + 1) j).take (i + 1) ++ [x]).Nodup := hLperm.nodup_iff.mpr hnd
      exact (List.nodup_append.mp this).1
    have hl1len : ((swap cp (i + 1) j).take (i + 1)).length = i + 1 := by
      rw [List.length_take, swap_length, hlen]
      omega
    have ht1 : t1.Perm ((swap cp (i + 1) j).take (i + 1)) := by
      have h1 : (t1 ++ [x]).Perm ((swap cp (i + 1) j).take (i + 1) ++ [x]) := by
        rw [← htx]
        exact hperm.trans hLperm.symm
      exact (List.perm_append_right_iff [x]).mp h1
    obtain ⟨rest, ⟨hrv, hrs⟩, hruniq⟩ := ih _ t1 hl1len hl1nd ht1
    have hrun : ∀ (j1 : Nat) (r1 : List Nat), j1 < i + 2 → ∀ y, cp[j1]? = some y →
        (shuffleLoop (i + 1) cp (streamOf (j1 :: r1))).1 =
          (shuffleLoop i ((swap cp (i + 1) j1).take (i + 1)) (streamOf r1)).1 ++ [y] := by
      intro j1 r1 hj1 y hy
      have hl : ((swap cp (i + 1) j1).take (i + 1)).length = i + 1 := by
        rw [List.length_take, swap_length, hlen]
        omega
      have hsw := swap_last cp i j1 hlen hj1 y hy
      rw [shuffleLoop, streamOf_cons_zero, streamOf_cons_drop, Nat.mod_eq_of_lt hj1]
      conv_lhs => rw [hsw]
      rw [shuffleLoop_append i _ y _ (by omega)]
    refine ⟨j :: rest, ⟨?_, ?_⟩, ?_⟩
    · rw [validJs, Bool.and_eq_true, decide_eq_true_eq]
      exact ⟨by omega, hrv⟩
    · rw [hrun j rest hj x hjx1, hrs, htx]
    · rintro js ⟨hv, hres⟩
      obtain ⟨j1, r1, rfl, hj1, hv1⟩ := validJs_succ i js hv
      have hj1lt : j1 < cp.length := by omega
      rw [hrun j1 r1 (by omega) cp[j1] (List.getElem?_eq_getElem hj1lt), htx] at hres
      have hl : ((shuffleLoop i ((swap cp (i + 1) j1).take (i + 1)) (streamOf r1)).1).length =
          t1.length := by
        have := congrArg List.length hres
        simpa using this
      obtain ⟨hres1, hres2⟩ := List.append_inj hres hl
      have hxy : cp[j1] = x := by
        injection hres2
      have hjj : j1 = j := (List.Nodup.getElem_inj_iff hnd).mp (hxy.trans hjx.symm)
      subst hjj
      rw [hruniq r1 ⟨hv1, hres1⟩]

/-- Every ordering of the positions is produced by `rand.Shuffle` on exactly one
sequence of in-range draws. -/
theorem Shuffle_bijective (len : Nat) (target : List Nat)
    (hperm : target.Perm (List.range len)) :
    ∃! js, validJs (len - 1) js = true ∧
      (Shuffle (List.range len) (streamOf js)).1 = target := by
  cases len with
  | zero =>
    refine ⟨[], ⟨rfl, ?_⟩, fun js h => validJs_zero js h.1⟩
    have : target = [] := by simpa using hperm
    rw [this]
    rfl
  | succ k =>
    have := shuffleLoop_bijective k (List.range (k + 1)) target (by simp)
      (List.nodup_range _) hperm
    unfold Shuffle
    rw [List.length_range]
    exact this

/-- The counts on two of three quotes and two draws: the loop has returned on the
six sequences of two different draws, and each position is selected on four
of them. -/
theorem hitCount_example :
    doneCount 3 2 2 = 6 ∧ hitCount 3 2 2 0 = 4 ∧ hitCount 3 2 2 1 = 4 ∧
      hitCount 3 2 2 2 = 4 := by
  decide

/-- The shuffle of three positions on the draws `1, 0`. -/
theorem Shuffle_example : (Shuffle (List.range 3) (streamOf [1, 0])).1 = [2, 0, 1] := by
  decide

/-- C12 (unbiased sampling).  Probabilities are taken over independent uniform
draws: every sequence of `F` draws from `[0, len)` is equally likely.

For `n < len(src)`: the quotes `sample` returns are those at the keys of `seen`;
among the sequences of `F` draws on which `sample` has returned, position `i` is
selected on the fraction `n / len` of them, for every `F` and every position;
the probability that `sample` has returned within `F` draws tends to 1; hence
the probability that position `i` appears in the result, the limit of the
probability that it does within `F` draws, is `n / len`, the same for every
candidate.

For `n >= len(src)`: `sample` returns `src` read at the shuffled positions, and
every ordering of the positions is produced by exactly one sequence of
in-range draws of the shuffle, so all orderings are equally likely. -/
theorem C12_unbiased_sampling (src : List Quote) (n : Nat) :
    (n < src.length →
      (∀ (fuel : Nat) (g : Rand),
        (∀ keys, sampleKeys src.length n fuel [] g = some keys →
          ∃ (out : List Quote) (g1 : Rand), sample src n fuel g = .done (out, g1) ∧
            out.map some = keys.map (fun i => src[i]?)) ∧
        (sampleKeys src.length n fuel [] g = none → sample src n fuel g = .outOfFuel)) ∧
      (∀ (F i : Nat), i < src.length →
        src.length * hitCount src.length n F i = n * doneCount src.length n F) ∧
      Filter.Tendsto (fun F : Nat => (doneCount src.length n F : ℝ) / (src.length : ℝ) ^ F)
        Filter.atTop (nhds 1) ∧
      (∀ i : Nat, i < src.length →
        Filter.Tendsto (fun F : Nat => (hitCount src.length n F i : ℝ) / (src.length : ℝ) ^ F)
          Filter.atTop (nhds ((n : ℝ) / (src.length : ℝ))))) ∧
    (src.length ≤ n →
      (∀ (fuel : Nat) (g : Rand), ∃ (out : List Quote) (g1 : Rand),
        sample src n fuel g = .done (out, g1) ∧
          out.map some = (Shuffle (List.range src.length) g).1.map (fun i => src[i]?)) ∧
      (∀ target : List Nat, target.Perm (List.range src.length) →
        ∃! js, validJs (src.length - 1) js = true ∧
          (Shuffle (List.range src.length) (streamOf js)).1 = target)) := by
  constructor
  · intro hn
    have hsrc : 0 < src.length := by omega
    refine ⟨?_, fun F i hi => hitCount_exact src.length n F i hi,
      doneCount_tendsto src.length n hn, fun i hi => hitCount_tendsto src.length n i hn hi⟩
    intro fuel g
    rw [sample_reject src n fuel g (by omega) (by exact_mod_cast hn)]
    exact sampleLoop_keys src n hsrc fuel [] [] g rfl
  · intro hn
    refine ⟨?_, fun target ht => Shuffle_bijective src.length target ht⟩
    intro fuel g
    exact ⟨(Shuffle src g).1, (Shuffle src g).2,
      sample_full src n fuel g (by exact_mod_cast hn), Shuffle_positions src g⟩

/-- Witness of C12: the three example quotes.  With `n = 2`, among the sequences of
four draws on which `sample` has returned, position 0 is selected on two thirds;
with `n = 3` the ordering `2, 0, 1` of the positions is produced by exactly one
sequence of draws. -/
theorem C12_unbiased_sampling_witness :
    (2 < ([qa, qb, qc] : List Quote).length ∧
      ([qa, qb, qc] : List Quote).length * hitCount ([qa, qb, qc] : List Quote).length 2 4 0 =
        2 * doneCount ([qa, qb, qc] : List Quote).length 2 4) ∧
    (([qa, qb, qc] : List Quote).length ≤ 3 ∧
      ∃! js, validJs (([qa, qb, qc] : List Quote).length - 1) js = true ∧
        (Shuffle (List.range ([qa, qb, qc] : List Quote).length) (streamOf js)).1 =
          [2, 0, 1]) :=
  ⟨⟨by decide, ((C12_unbiased_sampling [qa, qb, qc] 2).1 (by decide)).2.1 4 0 (by decide)⟩,
    ⟨by decide, ((C12_unbiased_sampling [qa, qb, qc] 3).2 (by decide)).2 [2, 0, 1]
      (by decide)⟩⟩

end Zequotes
